import Mathlib

/-
  Verification development for the MeatPy limit-order-book core.

  The repository sources available here contain only documentation,
  packaging and CI files; the Python implementation (meatpy/lob.py,
  meatpy/market_processor.py, meatpy/itch50/*) is not present.  All
  executable definitions below are therefore modelled from the
  specification (spec.md) and from the documentation shipped in the
  repository (docs/itch50_parser_writer.md, docs/ API reference), as
  faithfully as the prose allows.
-/

set_option autoImplicit false
set_option linter.unusedVariables false

namespace MeatPy

/-- Modelled from the spec: Side, section 3 of the data model.  The
implementation file meatpy/lob.py is missing from src. -/
inductive Side where
  | Bid
  | Ask
deriving DecidableEq, Repr

/-- Modelled from the spec: an Order carries (reference, side-implicit
via the level, price-implicit via the level, remaining volume, arrival
timestamp, optional attribution).  meatpy/lob.py is missing from src. -/
structure Order where
  ref : Nat
  volume : Nat
  timestamp : Nat
  attribution : Option Nat
deriving DecidableEq, Repr

/-- A price level is an insertion-ordered (FIFO) list of orders. -/
abbrev Level := List Order

/-- A side book is a price-sorted association list from price to level
(descending for Bid, ascending for Ask). -/
abbrev SideBook := List (Nat × Level)

/-- The OrderIndex maps an order reference to the side and price where
the order rests. -/
structure IndexEntry where
  side : Side
  price : Nat
deriving DecidableEq, Repr

/-- Modelled from the spec: the OrderBook holds the two side books and
the OrderIndex.  meatpy/lob.py is missing from src. -/
structure LimitOrderBook where
  bids : SideBook
  asks : SideBook
  index : List (Nat × IndexEntry)
deriving DecidableEq, Repr

/-- Modelled from the spec: the book error taxonomy of section 7. -/
inductive BookError where
  | DuplicateRef
  | UnknownRef
  | OverExecuted
  | OverCancelled
deriving DecidableEq, Repr

/-- First-match lookup of a reference in the order index. -/
def lookupRef (r : Nat) : List (Nat × IndexEntry) → Option IndexEntry
  | [] => none
  | (r2, e) :: rest => if r = r2 then some e else lookupRef r rest

/-- First-match lookup of a price level in a side book. -/
def lookupLevel (p : Nat) : SideBook → Option Level
  | [] => none
  | (q, lvl) :: rest => if p = q then some lvl else lookupLevel p rest

/-- First order with the given reference inside a level. -/
def findOrder (r : Nat) : Level → Option Order
  | [] => none
  | o :: rest => if o.ref = r then some o else findOrder r rest

/-- All orders of a level carrying the given reference, in level
order. -/
def levelFilter (r : Nat) : Level → Level
  | [] => []
  | o :: rest => if o.ref = r then o :: levelFilter r rest else levelFilter r rest

/-- Remove every order with the given reference from a level; the
relative order of the remaining orders is untouched. -/
def removeOrder (r : Nat) : Level → Level
  | [] => []
  | o :: rest => if o.ref = r then removeOrder r rest else o :: removeOrder r rest

/-- Decrement the remaining volume of the order with the given
reference; every other order is untouched (no reordering). -/
def decOrder (r shares : Nat) : Level → Level
  | [] => []
  | o :: rest =>
    (if o.ref = r then { o with volume := o.volume - shares } else o) :: decOrder r shares rest

/-- Remove a reference from the order index. -/
def removeIndex (r : Nat) : List (Nat × IndexEntry) → List (Nat × IndexEntry)
  | [] => []
  | pr :: rest => if pr.1 = r then removeIndex r rest else pr :: removeIndex r rest

/-- Select one side book of the book. -/
def sideBook (b : LimitOrderBook) : Side → SideBook
  | .Bid => b.bids
  | .Ask => b.asks

/-- Replace one side book of the book. -/
def setSide (b : LimitOrderBook) : Side → SideBook → LimitOrderBook
  | .Bid, sb => { b with bids := sb }
  | .Ask, sb => { b with asks := sb }

/-- Price priority: on the bid side higher prices come first, on the
ask side lower prices come first. -/
def priceBefore : Side → Nat → Nat → Bool
  | .Bid, p, q => q < p
  | .Ask, p, q => p < q

/-- Insert an order at a price into a side book: append to the FIFO
tail of the level when the level exists, otherwise create the level at
its price-sorted position. -/
def insertOrder (s : Side) (p : Nat) (o : Order) : SideBook → SideBook
  | [] => [(p, [o])]
  | (q, lvl) :: rest =>
    if p = q then (q, lvl ++ [o]) :: rest
    else if priceBefore s p q then (p, [o]) :: (q, lvl) :: rest
    else (q, lvl) :: insertOrder s p o rest

/-- Apply a function to the level at a price; drop the level when it
comes back empty (a level is destroyed when its last order leaves). -/
def updateLevel (p : Nat) (f : Level → Level) : SideBook → SideBook
  | [] => []
  | (q, lvl) :: rest =>
    if p = q then
      let lvl2 := f lvl
      if lvl2 = [] then rest else (q, lvl2) :: rest
    else (q, lvl) :: updateLevel p f rest

/-- Modelled from the spec: `add(ref, side, price, volume, timestamp,
attribution?)` creates the order at the price level (creating the level
if absent), appends to the FIFO tail and indexes by ref; fails
DuplicateRef if the ref is already live.  meatpy/lob.py is missing
from src. -/
def LimitOrderBook.add (b : LimitOrderBook) (ref : Nat) (s : Side)
    (price volume timestamp : Nat) (attribution : Option Nat) :
    Except BookError LimitOrderBook :=
  match lookupRef ref b.index with
  | some _ => .error .DuplicateRef
  | none =>
    let o : Order := ⟨ref, volume, timestamp, attribution⟩
    let b1 := setSide b s (insertOrder s price o (sideBook b s))
    .ok { b1 with index := (ref, ⟨s, price⟩) :: b1.index }

/-- Common core of execute and cancel: locate the order via the index,
decrement its remaining volume, and when it reaches zero remove the
order from its level (dropping the level if it empties) and from the
index.  The over-consumption error differs between the two operations
and is passed in. -/
def execCore (b : LimitOrderBook) (ref shares : Nat) (overErr : BookError) :
    Except BookError LimitOrderBook :=
  match lookupRef ref b.index with
  | none => .error .UnknownRef
  | some e =>
    match lookupLevel e.price (sideBook b e.side) with
    | none => .error .UnknownRef
    | some lvl =>
      match findOrder ref lvl with
      | none => .error .UnknownRef
      | some o =>
        if shares > o.volume then .error overErr
        else if shares = o.volume then
          let b1 := setSide b e.side
            (updateLevel e.price (removeOrder ref) (sideBook b e.side))
          .ok { b1 with index := removeIndex ref b1.index }
        else
          .ok (setSide b e.side
            (updateLevel e.price (decOrder ref shares) (sideBook b e.side)))

/-- Modelled from the spec: `execute(ref, shares, match_number)`.
Fails UnknownRef, OverExecuted (shares > remaining).  meatpy/lob.py is
missing from src. -/
def LimitOrderBook.execute (b : LimitOrderBook) (ref shares matchNumber : Nat) :
    Except BookError LimitOrderBook :=
  execCore b ref shares .OverExecuted

/-- Modelled from the spec: `execute_with_price` behaves as `execute`
on the book; the print price is recorded in the emitted event only and
does not alter the resting order. -/
def LimitOrderBook.execute_with_price (b : LimitOrderBook) (ref shares : Nat)
    (printable : Bool) (price matchNumber : Nat) : Except BookError LimitOrderBook :=
  execCore b ref shares .OverExecuted

/-- Modelled from the spec: `cancel(ref, shares)` decrements remaining
volume without deleting unless remaining reaches zero.  Fails
UnknownRef, OverCancelled. -/
def LimitOrderBook.cancel (b : LimitOrderBook) (ref shares : Nat) :
    Except BookError LimitOrderBook :=
  execCore b ref shares .OverCancelled

/-- Modelled from the spec: `delete(ref)` removes the order entirely
regardless of remaining volume.  Fails UnknownRef. -/
def LimitOrderBook.delete (b : LimitOrderBook) (ref : Nat) :
    Except BookError LimitOrderBook :=
  match lookupRef ref b.index with
  | none => .error .UnknownRef
  | some e =>
    let b1 := setSide b e.side
      (updateLevel e.price (removeOrder ref) (sideBook b e.side))
    .ok { b1 with index := removeIndex ref b1.index }

/-- Locate an order: index entry plus the resting order. -/
def orderLoc (b : LimitOrderBook) (r : Nat) : Option (IndexEntry × Order) :=
  match lookupRef r b.index with
  | none => none
  | some e =>
    match lookupLevel e.price (sideBook b e.side) with
    | none => none
    | some lvl => (findOrder r lvl).map (fun o => (e, o))

/-- Modelled from the spec: `replace(old_ref, new_ref, new_volume,
new_price)` is atomic delete(old) followed by add(new) on the same side
with the old order's attribution, the new price and volume, and the
replace message's timestamp (queue priority lost).  Fails UnknownRef,
DuplicateRef. -/
def LimitOrderBook.replace (b : LimitOrderBook)
    (oldRef newRef volume price timestamp : Nat) : Except BookError LimitOrderBook :=
  match orderLoc b oldRef with
  | none => .error .UnknownRef
  | some (e, o) =>
    let b1 := setSide b e.side
      (updateLevel e.price (removeOrder oldRef) (sideBook b e.side))
    let b2 := { b1 with index := removeIndex oldRef b1.index }
    b2.add newRef e.side price volume timestamp o.attribution

/-- Remaining volume of a live order, none when the reference is not
resolvable. -/
def remainingVolume (b : LimitOrderBook) (r : Nat) : Option Nat :=
  (orderLoc b r).map (fun pr => pr.2.volume)

/-- The reference is fully absent from the book: not indexed and
resting in no level. -/
def refFree (b : LimitOrderBook) (r : Nat) : Prop :=
  lookupRef r b.index = none ∧
  (∀ pr ∈ b.bids, levelFilter r pr.2 = []) ∧
  (∀ pr ∈ b.asks, levelFilter r pr.2 = [])

instance (b : LimitOrderBook) (r : Nat) : Decidable (refFree b r) := by
  unfold refFree; infer_instance

/-- Each side book is strictly sorted in its priority order (which
implies distinct prices per side). -/
def sortedBook (b : LimitOrderBook) : Prop :=
  List.Pairwise (fun x y => priceBefore .Bid x.1 y.1 = true) b.bids ∧
  List.Pairwise (fun x y => priceBefore .Ask x.1 y.1 = true) b.asks

instance (b : LimitOrderBook) : Decidable (sortedBook b) := by
  unfold sortedBook; infer_instance

/-- No price level of the book is empty. -/
def noEmpty (b : LimitOrderBook) : Prop :=
  (∀ pr ∈ b.bids, pr.2 ≠ []) ∧ (∀ pr ∈ b.asks, pr.2 ≠ [])

instance (b : LimitOrderBook) : Decidable (noEmpty b) := by
  unfold noEmpty; infer_instance

/-- An index entry resolves to a resting order. -/
def coherentAt (b : LimitOrderBook) (r : Nat) (e : IndexEntry) : Bool :=
  match lookupLevel e.price (sideBook b e.side) with
  | none => false
  | some lvl => (findOrder r lvl).isSome

/-- Every index entry of the book resolves to a resting order
(spec invariant 1, the direction the operations rely on). -/
def coherent (b : LimitOrderBook) : Prop :=
  ∀ pr ∈ b.index, coherentAt b pr.1 pr.2 = true

instance (b : LimitOrderBook) : Decidable (coherent b) := by
  unfold coherent; infer_instance

/-- The book with no orders. -/
def emptyBook : LimitOrderBook := ⟨[], [], []⟩

/-- An execute or cancel step aimed at one order. -/
inductive ExecCancelOp where
  | exec (shares matchNumber : Nat)
  | cxl (shares : Nat)
deriving DecidableEq, Repr

/-- Share amount consumed by a step. -/
def opShares : ExecCancelOp → Nat
  | .exec sh _ => sh
  | .cxl sh => sh

/-- Apply one execute or cancel step to the book. -/
def applyOp (r : Nat) (b : LimitOrderBook) : ExecCancelOp → Except BookError LimitOrderBook
  | .exec sh mn => b.execute r sh mn
  | .cxl sh => b.cancel r sh

/-- Apply a sequence of execute and cancel steps, stopping at the
first error. -/
def applyOps (r : Nat) (b : LimitOrderBook) : List ExecCancelOp → Except BookError LimitOrderBook
  | [] => .ok b
  | op :: rest =>
    match applyOp r b op with
    | .error e => .error e
    | .ok b2 => applyOps r b2 rest

/-- Modelled from the spec: the book-mutating and trade message kinds
of section 4.1 that the processor applies (section 4.4).  The
processor implementation meatpy/market_processor.py is missing from
src. -/
inductive MsgBody where
  | addO (ref : Nat) (side : Side) (price volume : Nat) (attribution : Option Nat)
  | execO (ref shares matchNumber : Nat)
  | execPriceO (ref shares : Nat) (printable : Bool) (price matchNumber : Nat)
  | cancelO (ref shares : Nat)
  | deleteO (ref : Nat)
  | replaceO (oldRef newRef volume price : Nat)
  | tradeO (ref : Nat) (side : Side) (shares price matchNumber : Nat)
deriving DecidableEq, Repr

/-- A feed message: a timestamp plus its body. -/
structure Msg where
  ts : Nat
  body : MsgBody
deriving DecidableEq, Repr

/-- Typed events dispatched to handlers (section 4.4 step 5; book
errors become warning events per section 7). -/
inductive Event where
  | added (ref : Nat)
  | executed (ref shares matchNumber : Nat)
  | cancelled (ref shares : Nat)
  | deleted (ref : Nat)
  | replaced (oldRef newRef : Nat)
  | tradeEv (ref shares price matchNumber : Nat)
  | warning (e : BookError)
deriving DecidableEq, Repr

/-- Processor state: book, last-seen timestamp, and the ordered log of
events delivered to handlers. -/
structure ProcState where
  book : LimitOrderBook
  lastTimestamp : Nat
  events : List Event
deriving DecidableEq, Repr

/-- Modelled from the spec: the book mutation dictated by each message
kind (section 4.4 step 3).  A hidden or visible trade print mutates no
book state and yields a trade event (spec invariant 6). -/
def applyBody (b : LimitOrderBook) (ts : Nat) : MsgBody → Except BookError (LimitOrderBook × Event)
  | .addO ref s price vol attr =>
    (b.add ref s price vol ts attr).map (fun b2 => (b2, .added ref))
  | .execO ref sh mn =>
    (b.execute ref sh mn).map (fun b2 => (b2, .executed ref sh mn))
  | .execPriceO ref sh pr price mn =>
    (b.execute_with_price ref sh pr price mn).map (fun b2 => (b2, .executed ref sh mn))
  | .cancelO ref sh =>
    (b.cancel ref sh).map (fun b2 => (b2, .cancelled ref sh))
  | .deleteO ref =>
    (b.delete ref).map (fun b2 => (b2, .deleted ref))
  | .replaceO o n vol price =>
    (b.replace o n vol price ts).map (fun b2 => (b2, .replaced o n))
  | .tradeO ref _ sh price mn => .ok (b, .tradeEv ref sh price mn)

/-- Modelled from the spec: per-message processing (section 4.4): apply
the mutation, update last_timestamp, dispatch the event; a failed book
mutation leaves the book unchanged and delivers a warning event
(StaleReference handling, section 7). -/
def processMessage (st : ProcState) (m : Msg) : ProcState :=
  match applyBody st.book m.ts m.body with
  | .ok (b2, ev) => ⟨b2, m.ts, st.events ++ [ev]⟩
  | .error e => ⟨st.book, m.ts, st.events ++ [.warning e]⟩

/-- Run the processor over a message list. -/
def runProc (st : ProcState) (msgs : List Msg) : ProcState :=
  msgs.foldl processMessage st

/-- State of a recorder with scheduled snapshot timestamps attached to
a processor: the not-yet-fired scheduled timestamps and the snapshots
delivered so far, keyed by their scheduled timestamp. -/
structure RecorderState where
  proc : ProcState
  pending : List Nat
  snaps : List (Nat × LimitOrderBook)
deriving DecidableEq, Repr

/-- Modelled from the spec: scheduled-snapshot trigger (section 4.5).
When a message arrives, every still-pending scheduled timestamp `t`
that the message's timestamp strictly exceeds fires before the
message's mutation is applied, delivering the pre-mutation book — so
the snapshot at `t` is the state formed by all messages with
timestamp at most `t`, the first message with a later timestamp not
yet reflected.  meatpy/event_handlers/lob_recorder.py is missing from
src. -/
def recordStep (rs : RecorderState) (m : Msg) : RecorderState :=
  ⟨processMessage rs.proc m,
   rs.pending.filter (fun t => decide (m.ts ≤ t)),
   rs.snaps ++ (rs.pending.filter (fun t => decide (t < m.ts))).map (fun t => (t, rs.proc.book))⟩

/-- Run the recorder-wrapped processor over a message list. -/
def runRecorder (rs : RecorderState) (msgs : List Msg) : RecorderState :=
  msgs.foldl recordStep rs

/-- First-match lookup of a snapshot by its scheduled timestamp. -/
def lookupSnap (t : Nat) : List (Nat × LimitOrderBook) → Option LimitOrderBook
  | [] => none
  | (t2, bk) :: rest => if t = t2 then some bk else lookupSnap t rest

/-- Modelled from the spec: the message shapes the symbol-filter
writer distinguishes (section 4.2).  `system` covers S, `marketWide`
the market-wide halt variants, `stock` the symbol-keyed kinds R, H, Y,
K, J, h, I, N, O; `addOrder` covers A and F; `orderExec` is E and
`orderExecPrice` is C; `trade` is P and `cross` is Q; `broken` is B.
meatpy/itch50/itch50_writer.py is missing from src. -/
inductive FMsg where
  | system (code : Nat)
  | marketWide (tag code : Nat)
  | stock (tag symbol : Nat)
  | addOrder (ref symbol : Nat) (mpid : Option Nat)
  | orderExec (ref matchNumber : Nat)
  | orderExecPrice (ref matchNumber : Nat)
  | orderCancel (ref shares : Nat)
  | orderDelete (ref : Nat)
  | orderReplace (oldRef newRef : Nat)
  | trade (ref symbol matchNumber : Nat)
  | cross (symbol matchNumber : Nat)
  | broken (matchNumber : Nat)
deriving DecidableEq, Repr

/-- Writer state: the transient set of emitted order references, the
emitted match numbers, and the output message sequence. -/
structure WriterState where
  emittedRefs : List Nat
  emittedMatches : List Nat
  output : List FMsg
deriving DecidableEq, Repr

/-- The writer state before any message. -/
def initWriter : WriterState := ⟨[], [], []⟩

/-- Modelled from the spec: the ITCH50Writer pass-through policy
(section 4.2): system-wide messages pass unconditionally; symbol-keyed
messages pass iff the symbol is in the filter set; order-keyed
messages (E, C, X, D, U) pass iff the referenced order reference was
previously emitted, a passed U removing the old ref and inserting the
new one; a broken trade (B) passes iff its match number was previously
emitted.  An emitted A/F inserts its ref; an emitted E, C, P or Q
records its match number. -/
def ITCH50Writer.process_message (filt : List Nat) (st : WriterState) (m : FMsg) : WriterState :=
  match m with
  | .system _ => { st with output := st.output ++ [m] }
  | .marketWide _ _ => { st with output := st.output ++ [m] }
  | .stock _ sym =>
    if sym ∈ filt then { st with output := st.output ++ [m] } else st
  | .addOrder ref sym _ =>
    if sym ∈ filt then
      { st with output := st.output ++ [m], emittedRefs := ref :: st.emittedRefs }
    else st
  | .orderExec ref mn =>
    if ref ∈ st.emittedRefs then
      { st with output := st.output ++ [m], emittedMatches := mn :: st.emittedMatches }
    else st
  | .orderExecPrice ref mn =>
    if ref ∈ st.emittedRefs then
      { st with output := st.output ++ [m], emittedMatches := mn :: st.emittedMatches }
    else st
  | .orderCancel ref _ =>
    if ref ∈ st.emittedRefs then { st with output := st.output ++ [m] } else st
  | .orderDelete ref =>
    if ref ∈ st.emittedRefs then { st with output := st.output ++ [m] } else st
  | .orderReplace o n =>
    if o ∈ st.emittedRefs then
      { st with
          output := st.output ++ [m],
          emittedRefs := n :: st.emittedRefs.filter (fun r => r != o) }
    else st
  | .trade _ sym mn =>
    if sym ∈ filt then
      { st with output := st.output ++ [m], emittedMatches := mn :: st.emittedMatches }
    else st
  | .cross sym mn =>
    if sym ∈ filt then
      { st with output := st.output ++ [m], emittedMatches := mn :: st.emittedMatches }
    else st
  | .broken mn =>
    if mn ∈ st.emittedMatches then { st with output := st.output ++ [m] } else st

/-- Run the writer over a message list. -/
def runWriter (filt : List Nat) (msgs : List FMsg) : WriterState :=
  msgs.foldl (ITCH50Writer.process_message filt) initWriter

/-- The order reference an order-keyed output message (E, C, X, D, U)
refers to; for U this is the old reference. -/
def orderKeyRef : FMsg → Option Nat
  | .orderExec r _ => some r
  | .orderExecPrice r _ => some r
  | .orderCancel r _ => some r
  | .orderDelete r => some r
  | .orderReplace r _ => some r
  | _ => none

/-- The match number a broken-trade output message refers to. -/
def brokenKeyMatch : FMsg → Option Nat
  | .broken mn => some mn
  | _ => none

/-- The message introduces the order reference into the feed: an add
(A/F) with that reference, or a replace (U) whose new reference it is. -/
def introducesRef (m : FMsg) (r : Nat) : Prop :=
  (∃ sym mp, m = .addOrder r sym mp) ∨ (∃ o, m = .orderReplace o r)

/-- The message introduces the match number into the feed: an
execution (E/C), a trade (P) or a cross (Q) carrying it. -/
def introducesMatch (m : FMsg) (mn : Nat) : Prop :=
  (∃ r, m = .orderExec r mn) ∨ (∃ r, m = .orderExecPrice r mn) ∨
  (∃ r sym, m = .trade r sym mn) ∨ (∃ sym, m = .cross sym mn)

/-- Every order-keyed and every match-number-keyed record of the
sequence refers to an entity introduced at an earlier position of the
same sequence. -/
def outputIntegrity (out : List FMsg) : Prop :=
  (∀ i m r, out.get? i = some m → orderKeyRef m = some r →
    ∃ j m2, j < i ∧ out.get? j = some m2 ∧ introducesRef m2 r) ∧
  (∀ i m mn, out.get? i = some m → brokenKeyMatch m = some mn →
    ∃ j m2, j < i ∧ out.get? j = some m2 ∧ introducesMatch m2 mn)

/-- Big-endian decoding of a byte list into a natural number. -/
def beDecode (bs : List Nat) : Nat :=
  bs.foldl (fun a b => a * 256 + b) 0

/-- Big-endian encoding of a value into exactly `n` bytes. -/
def beEncode : Nat → Nat → List Nat
  | 0, _ => []
  | n + 1, v => beEncode n (v / 256) ++ [v % 256]

/-- Decode a record body into its field values given the field widths. -/
def decodeFields : List Nat → List Nat → List Nat
  | [], _ => []
  | w :: ws, bs => beDecode (bs.take w) :: decodeFields ws (bs.drop w)

/-- Encode field values into bytes given the field widths. -/
def encodeFields : List Nat → List Nat → List Nat
  | [], _ => []
  | _, [] => []
  | w :: ws, v :: vs => beEncode w v ++ encodeFields ws vs

/-- Modelled from the spec: the tag-to-field-width table of the ITCH
5.0 decoder (section 4.1 message-kind table with the field widths of
sections 4.1 and 6: timestamps 6 bytes, prices 4, symbols 8, MPID 4,
order references and match numbers 8, share counts 4, flag and code
bytes 1).  The decoder implementation meatpy/itch50 is missing from
src; the per-tag layouts follow the spec's key-field lists.  Tags are
the ASCII bytes S R H Y L V W K J h A F E C X D U P Q B I N O. -/
def schema : Nat → Option (List Nat)
  | 83 => some [6, 1]                     -- S  SystemEvent
  | 82 => some [6, 8, 1, 1, 4]            -- R  StockDirectory
  | 72 => some [6, 8, 1, 4]               -- H  StockTradingAction
  | 89 => some [6, 8, 1]                  -- Y  RegSHORestriction
  | 76 => some [6, 4, 8, 1, 1]            -- L  MarketParticipantPosition
  | 86 => some [6, 8, 8, 8]               -- V  MWCB decline levels
  | 87 => some [6, 1]                     -- W  MWCB breach
  | 75 => some [6, 8, 4, 1, 4]            -- K  IPO quoting period
  | 74 => some [6, 8, 4, 4, 4, 4]         -- J  LULD auction collar
  | 104 => some [6, 8, 1, 1]              -- h  operational halt
  | 65 => some [6, 8, 1, 4, 8, 4]         -- A  AddOrder
  | 70 => some [6, 8, 1, 4, 8, 4, 4]      -- F  AddOrder with MPID
  | 69 => some [6, 8, 4, 8]               -- E  OrderExecuted
  | 67 => some [6, 8, 4, 8, 1, 4]         -- C  OrderExecutedWithPrice
  | 88 => some [6, 8, 4]                  -- X  OrderCancel
  | 68 => some [6, 8]                     -- D  OrderDelete
  | 85 => some [6, 8, 8, 4, 4]            -- U  OrderReplace
  | 80 => some [6, 8, 1, 4, 8, 4, 8]      -- P  Trade
  | 81 => some [6, 8, 8, 4, 8, 1]         -- Q  CrossTrade
  | 66 => some [6, 8]                     -- B  BrokenTrade
  | 73 => some [6, 8, 8, 1, 8, 4, 4, 4, 1, 1] -- I  NOII
  | 78 => some [6, 8, 1]                  -- N  RPI
  | 79 => some [6, 8, 1, 4, 8, 8]         -- O  DirectListingCapitalRaise
  | _ => none

/-- The tag bytes of the section 4.1 message-kind table. -/
def tagTable : List Nat :=
  [83, 82, 72, 89, 76, 86, 87, 75, 74, 104, 65, 70, 69, 67, 88, 68, 85, 80, 81, 66, 73, 78, 79]

/-- A decoded ITCH message: its tag byte and its field values in wire
order. -/
structure MessageModel where
  tag : Nat
  fields : List Nat
deriving DecidableEq, Repr

/-- Modelled from the spec: the decode error taxonomy of section 4.1. -/
inductive DecodeError where
  | TruncatedStream
  | UnknownType (b : Nat)
  | LengthMismatch (expected actual : Nat)
deriving DecidableEq, Repr

/-- Modelled from the spec: serialize a MessageModel back to
length-prefixed bytes, byte-identical to the wire form (section 4.2). -/
def encodeRecord (m : MessageModel) : List Nat :=
  match schema m.tag with
  | none => []
  | some ws =>
    let payload := m.tag :: encodeFields ws m.fields
    beEncode 2 payload.length ++ payload

/-- Modelled from the spec: decode one length-prefixed record
(section 4.1): read the 16-bit big-endian length, then exactly that
many payload bytes; the first payload byte is the tag; dispatch on the
tag; check the framed length against the tag's known length. -/
def decodeRecord (bs : List Nat) : Except DecodeError MessageModel :=
  match bs with
  | b0 :: b1 :: rest =>
    let len := b0 * 256 + b1
    if rest.length < len then .error .TruncatedStream
    else
      match rest.take len with
      | [] => .error .TruncatedStream
      | tag :: body =>
        match schema tag with
        | none => .error (.UnknownType tag)
        | some ws =>
          if len = 1 + ws.sum then .ok ⟨tag, decodeFields ws body⟩
          else .error (.LengthMismatch (1 + ws.sum) len)
  | _ => .error .TruncatedStream

/-- A well-framed single record: a 16-bit big-endian length prefix
holding the payload length, the payload being a known tag byte
followed by exactly the tag's fixed number of body bytes, every byte
below 256, and nothing after the record. -/
def wellFramed (bs : List Nat) : Prop :=
  ∃ tag ws body, schema tag = some ws ∧ tag < 256 ∧ (∀ x ∈ body, x < 256) ∧
    body.length = ws.sum ∧ 1 + ws.sum < 65536 ∧
    bs = beEncode 2 (1 + ws.sum) ++ tag :: body

/-- The reference sequence of every level of a side book, in book
order: the observable (price, FIFO queue) shape of a side. -/
def shapeSB (sb : SideBook) : List (Nat × List Nat) :=
  sb.map (fun pr => (pr.1, pr.2.map (fun o => o.ref)))

/-- The observable (price, FIFO reference queue) shape of both sides
of the book. -/
def refsShape (b : LimitOrderBook) : List (Nat × List Nat) × List (Nat × List Nat) :=
  (shapeSB b.bids, shapeSB b.asks)

/-- Invariant while one tracked order is being consumed: the index
resolves the reference, the level at its price holds exactly one order
with the reference (the tracked one), the book is price-sorted and has
no empty level. -/
def Tracked (b : LimitOrderBook) (e : IndexEntry) (o : Order) : Prop :=
  lookupRef o.ref b.index = some e ∧
  (∃ lvl, lookupLevel e.price (sideBook b e.side) = some lvl ∧ levelFilter o.ref lvl = [o]) ∧
  sortedBook b ∧ noEmpty b

/-- State after the tracked order is fully consumed: absent from the
index and from its price level, the book still price-sorted with no
empty level (so an emptied level was removed). -/
def Removed (b : LimitOrderBook) (e : IndexEntry) (r : Nat) : Prop :=
  lookupRef r b.index = none ∧
  (∀ lvl, lookupLevel e.price (sideBook b e.side) = some lvl → levelFilter r lvl = []) ∧
  sortedBook b ∧ noEmpty b

/-- Writer-state soundness: every tracked reference and match number
has an introducer already in the output, and the output itself has
referential integrity. -/
def writerGood (st : WriterState) : Prop :=
  (∀ r ∈ st.emittedRefs, ∃ j m2, st.output.get? j = some m2 ∧ introducesRef m2 r) ∧
  (∀ mn ∈ st.emittedMatches, ∃ j m2, st.output.get? j = some m2 ∧ introducesMatch m2 mn) ∧
  outputIntegrity st.output

/-- The last order of a level, the FIFO tail. -/
def lastOrder : Level → Option Order
  | [] => none
  | [o] => some o
  | _ :: o2 :: rest => lastOrder (o2 :: rest)

/-- The spec-side composition for the replace refinement claim,
following the spec's words: read the old order's side and attribution,
delete(old_ref), then add(new_ref, same side and attribution as old,
new price and volume, the replace message's timestamp). -/
def deleteThenAdd (b : LimitOrderBook) (oldRef newRef volume price timestamp : Nat) :
    Except BookError LimitOrderBook :=
  match orderLoc b oldRef with
  | none => .error .UnknownRef
  | some (e, o) =>
    match b.delete oldRef with
    | .error er => .error er
    | .ok b1 => b1.add newRef e.side price volume timestamp o.attribution

/- ------------------------------------------------------------------
   Lemmas: index and level lookups
   ------------------------------------------------------------------ -/

@[simp] theorem lookupRef_nil (r : Nat) : lookupRef r [] = none := rfl

@[simp] theorem lookupRef_cons (r r2 : Nat) (e : IndexEntry) (idx : List (Nat × IndexEntry)) :
    lookupRef r ((r2, e) :: idx) = if r = r2 then some e else lookupRef r idx := rfl

@[simp] theorem lookupLevel_nil (p : Nat) : lookupLevel p [] = none := rfl

@[simp] theorem lookupLevel_cons (p q : Nat) (lvl : Level) (sb : SideBook) :
    lookupLevel p ((q, lvl) :: sb) = if p = q then some lvl else lookupLevel p sb := rfl

@[simp] theorem findOrder_nil (r : Nat) : findOrder r [] = none := rfl

@[simp] theorem findOrder_cons (r : Nat) (o : Order) (lvl : Level) :
    findOrder r (o :: lvl) = if o.ref = r then some o else findOrder r lvl := rfl

@[simp] theorem levelFilter_cons (r : Nat) (o : Order) (lvl : Level) :
    levelFilter r (o :: lvl) =
      if o.ref = r then o :: levelFilter r lvl else levelFilter r lvl := rfl

@[simp] theorem levelFilter_nil (r : Nat) : levelFilter r [] = [] := rfl

@[simp] theorem removeOrder_nil (r : Nat) : removeOrder r [] = [] := rfl

@[simp] theorem removeOrder_cons (r : Nat) (o : Order) (lvl : Level) :
    removeOrder r (o :: lvl) =
      if o.ref = r then removeOrder r lvl else o :: removeOrder r lvl := rfl

@[simp] theorem decOrder_nil (r shares : Nat) : decOrder r shares [] = [] := rfl

@[simp] theorem decOrder_cons (r shares : Nat) (o : Order) (lvl : Level) :
    decOrder r shares (o :: lvl) =
      (if o.ref = r then { o with volume := o.volume - shares } else o) ::
        decOrder r shares lvl := rfl

@[simp] theorem removeIndex_nil (r : Nat) : removeIndex r [] = [] := rfl

@[simp] theorem removeIndex_cons (r : Nat) (pr : Nat × IndexEntry)
    (idx : List (Nat × IndexEntry)) :
    removeIndex r (pr :: idx) =
      if pr.1 = r then removeIndex r idx else pr :: removeIndex r idx := rfl

theorem lookupRef_mem {r : Nat} {idx : List (Nat × IndexEntry)} {e : IndexEntry}
    (h : lookupRef r idx = some e) : (r, e) ∈ idx := by
  induction idx with
  | nil => simp at h
  | cons pr rest ih =>
    obtain ⟨r2, e2⟩ := pr
    by_cases hr : r = r2
    · subst hr
      simp at h
      subst h
      exact List.mem_cons_self _ _
    · simp [hr] at h
      exact List.mem_cons_of_mem _ (ih h)

theorem lookupLevel_mem {p : Nat} {sb : SideBook} {lvl : Level}
    (h : lookupLevel p sb = some lvl) : (p, lvl) ∈ sb := by
  induction sb with
  | nil => simp at h
  | cons pr rest ih =>
    obtain ⟨q, lvl2⟩ := pr
    by_cases hq : p = q
    · subst hq
      simp at h
      subst h
      exact List.mem_cons_self _ _
    · simp [hq] at h
      exact List.mem_cons_of_mem _ (ih h)

@[simp] theorem lookupRef_removeIndex_self (r : Nat) (idx : List (Nat × IndexEntry)) :
    lookupRef r (removeIndex r idx) = none := by
  induction idx with
  | nil => rfl
  | cons pr rest ih =>
    obtain ⟨r2, e⟩ := pr
    by_cases hr : r2 = r
    · simpa [hr] using ih
    · have hne : ¬ r = r2 := fun h => hr h.symm
      simp [hr, hne, ih]

theorem lookupRef_removeIndex_ne {r r2 : Nat} (idx : List (Nat × IndexEntry))
    (h : r2 ≠ r) : lookupRef r2 (removeIndex r idx) = lookupRef r2 idx := by
  induction idx with
  | nil => rfl
  | cons pr rest ih =>
    obtain ⟨r3, e⟩ := pr
    by_cases hr : r3 = r
    · subst hr
      simp [h, ih]
    · by_cases h2 : r2 = r3 <;> simp [hr, h2, ih]

/- ------------------------------------------------------------------
   Lemmas: level contents
   ------------------------------------------------------------------ -/

theorem findOrder_of_filter_singleton {r : Nat} {lvl : Level} {o : Order}
    (h : levelFilter r lvl = [o]) : findOrder r lvl = some o ∧ o.ref = r := by
  induction lvl with
  | nil => simp at h
  | cons o2 rest ih =>
    by_cases h2 : o2.ref = r
    · simp [h2] at h ⊢
      obtain ⟨rfl, -⟩ := h
      exact ⟨rfl, h2⟩
    · simp [h2] at h ⊢
      exact ih h

theorem mem_of_filter_singleton {r : Nat} {lvl : Level} {o : Order}
    (h : levelFilter r lvl = [o]) : o ∈ lvl := by
  induction lvl with
  | nil => simp at h
  | cons o2 rest ih =>
    by_cases h2 : o2.ref = r
    · simp [h2] at h
      simp [h.1]
    · simp [h2] at h
      exact List.mem_cons_of_mem _ (ih h)

@[simp] theorem levelFilter_removeOrder (r : Nat) (lvl : Level) :
    levelFilter r (removeOrder r lvl) = [] := by
  induction lvl with
  | nil => rfl
  | cons o rest ih =>
    by_cases h : o.ref = r <;> simp [h, ih]

theorem levelFilter_decOrder_eq (r shares : Nat) (lvl : Level) :
    levelFilter r (decOrder r shares lvl) =
      (levelFilter r lvl).map (fun o => { o with volume := o.volume - shares }) := by
  induction lvl with
  | nil => rfl
  | cons o rest ih =>
    by_cases h : o.ref = r <;> simp [h, ih]

theorem decOrder_refs (r shares : Nat) (lvl : Level) :
    (decOrder r shares lvl).map (fun o => o.ref) = lvl.map (fun o => o.ref) := by
  induction lvl with
  | nil => rfl
  | cons o rest ih =>
    by_cases h : o.ref = r <;> simp [h, ih]

theorem decOrder_ne_nil {r shares : Nat} {lvl : Level} (h : lvl ≠ []) :
    decOrder r shares lvl ≠ [] := by
  cases lvl with
  | nil => exact absurd rfl h
  | cons o rest => simp

theorem removeOrder_sublist (r : Nat) (lvl : Level) : (removeOrder r lvl).Sublist lvl := by
  induction lvl with
  | nil => simp
  | cons o rest ih =>
    by_cases h : o.ref = r
    · simp [h]
      exact ih.cons _
    · simp [h]
      exact ih

/- ------------------------------------------------------------------
   Lemmas: price priority and sorted side books
   ------------------------------------------------------------------ -/

theorem priceBefore_trans {s : Side} {p q r : Nat}
    (h1 : priceBefore s p q = true) (h2 : priceBefore s q r = true) :
    priceBefore s p r = true := by
  cases s <;> simp [priceBefore] at * <;> omega

theorem priceBefore_irrefl {s : Side} {p q : Nat} (h : priceBefore s p q = true) : p ≠ q := by
  cases s <;> simp [priceBefore] at h <;> omega

theorem priceBefore_total {s : Side} {p q : Nat} (hne : p ≠ q)
    (h : ¬ priceBefore s p q = true) : priceBefore s q p = true := by
  cases s <;> simp [priceBefore] at * <;> omega

theorem insertOrder_eq_of_eq {s : Side} {p q : Nat} (o : Order) (lvl : Level) (rest : SideBook)
    (h : p = q) : insertOrder s p o ((q, lvl) :: rest) = (q, lvl ++ [o]) :: rest := by
  simp [insertOrder, h]

theorem insertOrder_eq_of_lt {s : Side} {p q : Nat} (o : Order) (lvl : Level) (rest : SideBook)
    (h : ¬ p = q) (hb : priceBefore s p q = true) :
    insertOrder s p o ((q, lvl) :: rest) = (p, [o]) :: (q, lvl) :: rest := by
  simp [insertOrder, h, hb]

theorem insertOrder_eq_of_gt {s : Side} {p q : Nat} (o : Order) (lvl : Level) (rest : SideBook)
    (h : ¬ p = q) (hb : ¬ priceBefore s p q = true) :
    insertOrder s p o ((q, lvl) :: rest) = (q, lvl) :: insertOrder s p o rest := by
  simp [insertOrder, h, hb]

theorem updateLevel_eq_of_eq_nil {p q : Nat} (f : Level → Level) (lvl : Level) (rest : SideBook)
    (h : p = q) (he : f lvl = []) : updateLevel p f ((q, lvl) :: rest) = rest := by
  simp [updateLevel, h, he]

theorem updateLevel_eq_of_eq {p q : Nat} (f : Level → Level) (lvl : Level) (rest : SideBook)
    (h : p = q) (he : ¬ f lvl = []) :
    updateLevel p f ((q, lvl) :: rest) = (q, f lvl) :: rest := by
  simp [updateLevel, h, he]

theorem updateLevel_eq_of_ne {p q : Nat} (f : Level → Level) (lvl : Level) (rest : SideBook)
    (h : ¬ p = q) : updateLevel p f ((q, lvl) :: rest) = (q, lvl) :: updateLevel p f rest := by
  simp [updateLevel, h]

/-- Keys appearing after an insertion are the inserted key or old keys. -/
theorem insertOrder_keys {s : Side} {p : Nat} {o : Order} {sb : SideBook} {pr : Nat × Level}
    (h : pr ∈ insertOrder s p o sb) : pr.1 = p ∨ ∃ lvl, (pr.1, lvl) ∈ sb := by
  induction sb with
  | nil =>
    simp [insertOrder] at h
    simp [h]
  | cons hd rest ih =>
    obtain ⟨q, lvl⟩ := hd
    by_cases hpq : p = q
    · rw [insertOrder_eq_of_eq o lvl rest hpq] at h
      rcases List.mem_cons.mp h with h2 | h2
      · right
        exact ⟨lvl, by simp [h2]⟩
      · right
        obtain ⟨a, bb⟩ := pr
        exact ⟨bb, List.mem_cons_of_mem _ h2⟩
    · by_cases hb : priceBefore s p q = true
      · rw [insertOrder_eq_of_lt o lvl rest hpq hb] at h
        rcases List.mem_cons.mp h with h2 | h2
        · left
          simp [h2]
        · right
          obtain ⟨a, bb⟩ := pr
          exact ⟨bb, h2⟩
      · rw [insertOrder_eq_of_gt o lvl rest hpq hb] at h
        rcases List.mem_cons.mp h with h2 | h2
        · right
          exact ⟨lvl, by simp [h2]⟩
        · rcases ih h2 with h3 | h3
          · left
            exact h3
          · right
            obtain ⟨lvl2, h4⟩ := h3
            exact ⟨lvl2, List.mem_cons_of_mem _ h4⟩

/-- Insertion preserves strict price sorting of a side book. -/
theorem insertOrder_sorted {s : Side} {p : Nat} {o : Order} {sb : SideBook}
    (hs : List.Pairwise (fun x y => priceBefore s x.1 y.1 = true) sb) :
    List.Pairwise (fun x y => priceBefore s x.1 y.1 = true) (insertOrder s p o sb) := by
  induction sb with
  | nil => simp [insertOrder]
  | cons hd rest ih =>
    obtain ⟨q, lvl⟩ := hd
    rw [List.pairwise_cons] at hs
    obtain ⟨hq, hrest⟩ := hs
    by_cases hpq : p = q
    · rw [insertOrder_eq_of_eq o lvl rest hpq, List.pairwise_cons]
      exact ⟨hq, hrest⟩
    · by_cases hb : priceBefore s p q = true
      · rw [insertOrder_eq_of_lt o lvl rest hpq hb, List.pairwise_cons]
        constructor
        · intro pr hpr
          rcases List.mem_cons.mp hpr with h | h
          · simp [h, hb]
          · exact priceBefore_trans hb (hq pr h)
        · rw [List.pairwise_cons]
          exact ⟨hq, hrest⟩
      · rw [insertOrder_eq_of_gt o lvl rest hpq hb, List.pairwise_cons]
        constructor
        · intro pr hpr
          rcases insertOrder_keys hpr with h | h
          · rw [h]
            exact priceBefore_total (fun h2 => hpq h2) hb
          · obtain ⟨lvl2, hmem⟩ := h
            exact hq (pr.1, lvl2) hmem
        · exact ih hrest

/-- In a strictly sorted side book the head key does not recur in the
tail. -/
theorem sorted_head_notin_tail {s : Side} {q : Nat} {rest : SideBook}
    (hq : ∀ pr ∈ rest, priceBefore s q pr.1 = true) :
    lookupLevel q rest = none := by
  induction rest with
  | nil => rfl
  | cons hd rest2 ih =>
    obtain ⟨q2, lvl2⟩ := hd
    have hb := hq (q2, lvl2) (List.mem_cons_self _ _)
    have hne : q ≠ q2 := priceBefore_irrefl hb
    simp [hne]
    exact ih (fun pr hpr => hq pr (List.mem_cons_of_mem _ hpr))

/-- Looking up the inserted price after insertion into a sorted book:
the new order sits at the FIFO tail of its level. -/
theorem lookupLevel_insertOrder_self {s : Side} {p : Nat} {o : Order} {sb : SideBook}
    (hs : List.Pairwise (fun x y => priceBefore s x.1 y.1 = true) sb) :
    lookupLevel p (insertOrder s p o sb) = some (((lookupLevel p sb).getD []) ++ [o]) := by
  induction sb with
  | nil => simp [insertOrder]
  | cons hd rest ih =>
    obtain ⟨q, lvl⟩ := hd
    rw [List.pairwise_cons] at hs
    obtain ⟨hq, hrest⟩ := hs
    by_cases hpq : p = q
    · rw [insertOrder_eq_of_eq o lvl rest hpq]
      simp [hpq]
    · by_cases hb : priceBefore s p q = true
      · rw [insertOrder_eq_of_lt o lvl rest hpq hb]
        have hnone : lookupLevel p rest = none := by
          apply sorted_head_notin_tail
          intro pr hpr
          exact priceBefore_trans hb (hq pr hpr)
        simp [hpq, hnone]
      · rw [insertOrder_eq_of_gt o lvl rest hpq hb]
        simp [hpq]
        exact ih hrest

/-- Insertion at one price does not disturb lookups at other prices. -/
theorem lookupLevel_insertOrder_ne {s : Side} {p p2 : Nat} {o : Order} {sb : SideBook}
    (h : p2 ≠ p) : lookupLevel p2 (insertOrder s p o sb) = lookupLevel p2 sb := by
  induction sb with
  | nil => simp [insertOrder, h]
  | cons hd rest ih =>
    obtain ⟨q, lvl⟩ := hd
    by_cases hpq : p = q
    · rw [insertOrder_eq_of_eq o lvl rest hpq]
      have h2 : p2 ≠ q := fun h3 => h (h3.trans hpq.symm)
      simp [h2]
    · by_cases hb : priceBefore s p q = true
      · rw [insertOrder_eq_of_lt o lvl rest hpq hb]
        simp [h]
      · rw [insertOrder_eq_of_gt o lvl rest hpq hb]
        by_cases h2 : p2 = q <;> simp [h2, ih]

/-- Updating one price does not disturb lookups at other prices. -/
theorem lookupLevel_updateLevel_ne {p p2 : Nat} {f : Level → Level} {sb : SideBook}
    (h : p2 ≠ p) : lookupLevel p2 (updateLevel p f sb) = lookupLevel p2 sb := by
  induction sb with
  | nil => rfl
  | cons hd rest ih =>
    obtain ⟨q, lvl⟩ := hd
    by_cases hpq : p = q
    · have h2 : p2 ≠ q := fun h3 => h (h3.trans hpq.symm)
      by_cases he : f lvl = []
      · rw [updateLevel_eq_of_eq_nil f lvl rest hpq he]
        rw [← ih]
        simp [h2, ih]
      · rw [updateLevel_eq_of_eq f lvl rest hpq he]
        simp [h2, ih]
    · rw [updateLevel_eq_of_ne f lvl rest hpq]
      by_cases h2 : p2 = q <;> simp [h2, ih]

/-- Updating the level at a price in a sorted book, when the update
keeps the level nonempty. -/
theorem lookupLevel_updateLevel_self {s : Side} {p : Nat} {f : Level → Level}
    {sb : SideBook} {lvl : Level}
    (hs : List.Pairwise (fun x y => priceBefore s x.1 y.1 = true) sb)
    (hl : lookupLevel p sb = some lvl) (hne : f lvl ≠ []) :
    lookupLevel p (updateLevel p f sb) = some (f lvl) := by
  induction sb with
  | nil => simp at hl
  | cons hd rest ih =>
    obtain ⟨q, lvl2⟩ := hd
    rw [List.pairwise_cons] at hs
    by_cases hpq : p = q
    · simp [hpq] at hl
      rw [← hl] at hne ⊢
      rw [updateLevel_eq_of_eq f lvl2 rest hpq hne]
      simp [hpq]
    · simp [hpq] at hl
      rw [updateLevel_eq_of_ne f lvl2 rest hpq]
      simp [hpq]
      exact ih hs.2 hl

/-- Updating the level at a price in a sorted book, when the update
empties the level: the level is removed. -/
theorem lookupLevel_updateLevel_self_nil {s : Side} {p : Nat} {f : Level → Level}
    {sb : SideBook} {lvl : Level}
    (hs : List.Pairwise (fun x y => priceBefore s x.1 y.1 = true) sb)
    (hl : lookupLevel p sb = some lvl) (hne : f lvl = []) :
    lookupLevel p (updateLevel p f sb) = none := by
  induction sb with
  | nil => simp at hl
  | cons hd rest ih =>
    obtain ⟨q, lvl2⟩ := hd
    rw [List.pairwise_cons] at hs
    by_cases hpq : p = q
    · simp [hpq] at hl
      rw [← hl] at hne
      rw [updateLevel_eq_of_eq_nil f lvl2 rest hpq hne]
      subst hpq
      exact sorted_head_notin_tail hs.1
    · simp [hpq] at hl
      rw [updateLevel_eq_of_ne f lvl2 rest hpq]
      simp [hpq]
      exact ih hs.2 hl

/-- The keys of an updated side book form a sublist of the old keys. -/
theorem updateLevel_keys_sublist (p : Nat) (f : Level → Level) (sb : SideBook) :
    ((updateLevel p f sb).map Prod.fst).Sublist (sb.map Prod.fst) := by
  induction sb with
  | nil => simp [updateLevel]
  | cons hd rest ih =>
    obtain ⟨q, lvl⟩ := hd
    by_cases hpq : p = q
    · by_cases he : f lvl = []
      · rw [updateLevel_eq_of_eq_nil f lvl rest hpq he]
        exact List.sublist_cons_self _ _
      · rw [updateLevel_eq_of_eq f lvl rest hpq he]
        simp
    · rw [updateLevel_eq_of_ne f lvl rest hpq]
      simp
      exact ih

/-- An updated side book stays strictly sorted. -/
theorem updateLevel_sorted {s : Side} {p : Nat} {f : Level → Level} {sb : SideBook}
    (hs : List.Pairwise (fun x y => priceBefore s x.1 y.1 = true) sb) :
    List.Pairwise (fun x y => priceBefore s x.1 y.1 = true) (updateLevel p f sb) := by
  have hmap : List.Pairwise (fun a b => priceBefore s a b = true) (sb.map Prod.fst) := by
    rw [List.pairwise_map]
    exact hs
  have hmap2 := hmap.sublist (updateLevel_keys_sublist p f sb)
  rw [List.pairwise_map] at hmap2
  exact hmap2

/-- Updating never leaves an empty level in a side book. -/
theorem updateLevel_noEmpty {p : Nat} {f : Level → Level} {sb : SideBook}
    (h : ∀ pr ∈ sb, pr.2 ≠ []) : ∀ pr ∈ updateLevel p f sb, pr.2 ≠ [] := by
  induction sb with
  | nil => simp [updateLevel]
  | cons hd rest ih =>
    obtain ⟨q, lvl⟩ := hd
    have hrest : ∀ pr ∈ rest, pr.2 ≠ [] :=
      fun pr hpr => h pr (List.mem_cons_of_mem _ hpr)
    intro pr hpr
    by_cases hpq : p = q
    · by_cases he : f lvl = []
      · rw [updateLevel_eq_of_eq_nil f lvl rest hpq he] at hpr
        exact hrest pr hpr
      · rw [updateLevel_eq_of_eq f lvl rest hpq he] at hpr
        rcases List.mem_cons.mp hpr with h2 | h2
        · rw [h2]
          exact he
        · exact hrest pr h2
    · rw [updateLevel_eq_of_ne f lvl rest hpq] at hpr
      rcases List.mem_cons.mp hpr with h2 | h2
      · rw [h2]
        exact h (q, lvl) (List.mem_cons_self _ _)
      · exact ih hrest pr h2

/-- Insertion never leaves an empty level in a side book. -/
theorem insertOrder_noEmpty {s : Side} {p : Nat} {o : Order} {sb : SideBook}
    (h : ∀ pr ∈ sb, pr.2 ≠ []) : ∀ pr ∈ insertOrder s p o sb, pr.2 ≠ [] := by
  induction sb with
  | nil =>
    intro pr hpr
    simp [insertOrder] at hpr
    simp [hpr]
  | cons hd rest ih =>
    obtain ⟨q, lvl⟩ := hd
    have hrest : ∀ pr ∈ rest, pr.2 ≠ [] :=
      fun pr hpr => h pr (List.mem_cons_of_mem _ hpr)
    intro pr hpr
    by_cases hpq : p = q
    · rw [insertOrder_eq_of_eq o lvl rest hpq] at hpr
      rcases List.mem_cons.mp hpr with h2 | h2
      · rw [h2]
        simp
      · exact hrest pr h2
    · by_cases hb : priceBefore s p q = true
      · rw [insertOrder_eq_of_lt o lvl rest hpq hb] at hpr
        rcases List.mem_cons.mp hpr with h2 | h2
        · rw [h2]
          simp
        · rcases List.mem_cons.mp h2 with h3 | h3
          · rw [h3]
            exact h (q, lvl) (List.mem_cons_self _ _)
          · exact hrest pr h3
      · rw [insertOrder_eq_of_gt o lvl rest hpq hb] at hpr
        rcases List.mem_cons.mp hpr with h2 | h2
        · rw [h2]
          exact h (q, lvl) (List.mem_cons_self _ _)
        · exact ih hrest pr h2

/- ------------------------------------------------------------------
   Lemmas: side selection and whole-book invariants
   ------------------------------------------------------------------ -/

@[simp] theorem sideBook_setSide_same (b : LimitOrderBook) (s : Side) (sb : SideBook) :
    sideBook (setSide b s sb) s = sb := by
  cases s <;> rfl

theorem sideBook_setSide_other (b : LimitOrderBook) {s s2 : Side} (sb : SideBook)
    (h : s2 ≠ s) : sideBook (setSide b s sb) s2 = sideBook b s2 := by
  cases s <;> cases s2 <;> first | rfl | exact absurd rfl h

@[simp] theorem setSide_index (b : LimitOrderBook) (s : Side) (sb : SideBook) :
    (setSide b s sb).index = b.index := by
  cases s <;> rfl

theorem sorted_sideBook {b : LimitOrderBook} (hs : sortedBook b) (s : Side) :
    List.Pairwise (fun x y => priceBefore s x.1 y.1 = true) (sideBook b s) := by
  cases s
  · exact hs.1
  · exact hs.2

theorem noEmpty_sideBook {b : LimitOrderBook} (hn : noEmpty b) (s : Side) :
    ∀ pr ∈ sideBook b s, pr.2 ≠ [] := by
  cases s
  · exact hn.1
  · exact hn.2

theorem sortedBook_setSide {b : LimitOrderBook} {s : Side} {sb : SideBook}
    (hb : sortedBook b)
    (hsb : List.Pairwise (fun x y => priceBefore s x.1 y.1 = true) sb) :
    sortedBook (setSide b s sb) := by
  cases s
  · exact ⟨hsb, hb.2⟩
  · exact ⟨hb.1, hsb⟩

theorem noEmpty_setSide {b : LimitOrderBook} {s : Side} {sb : SideBook}
    (hb : noEmpty b) (hsb : ∀ pr ∈ sb, pr.2 ≠ []) :
    noEmpty (setSide b s sb) := by
  cases s
  · exact ⟨hsb, hb.2⟩
  · exact ⟨hb.1, hsb⟩

theorem sortedBook_setIndex {b : LimitOrderBook} (idx : List (Nat × IndexEntry))
    (hb : sortedBook b) : sortedBook { b with index := idx } := hb

theorem noEmpty_setIndex {b : LimitOrderBook} (idx : List (Nat × IndexEntry))
    (hb : noEmpty b) : noEmpty { b with index := idx } := hb

theorem refFree_sideBook {b : LimitOrderBook} {r : Nat} (h : refFree b r) (s : Side) :
    ∀ pr ∈ sideBook b s, levelFilter r pr.2 = [] := by
  cases s
  · exact h.2.1
  · exact h.2.2

theorem levelFilter_append (r : Nat) (l1 l2 : Level) :
    levelFilter r (l1 ++ l2) = levelFilter r l1 ++ levelFilter r l2 := by
  induction l1 with
  | nil => simp
  | cons o rest ih =>
    by_cases h : o.ref = r <;> simp [h, ih]

/- ------------------------------------------------------------------
   Lemmas: the add operation
   ------------------------------------------------------------------ -/

/-- The success equation of add. -/
theorem add_ok {b : LimitOrderBook} {ref : Nat} (s : Side)
    (price volume ts : Nat) (attr : Option Nat)
    (hfree : lookupRef ref b.index = none) :
    b.add ref s price volume ts attr =
      .ok { setSide b s (insertOrder s price ⟨ref, volume, ts, attr⟩ (sideBook b s)) with
            index := (ref, ⟨s, price⟩) :: b.index } := by
  unfold LimitOrderBook.add
  rw [hfree]
  cases s <;> rfl

/-- Adding a fresh reference to a sorted book with no stale copies of
the reference establishes the tracked invariant. -/
theorem add_tracked {b : LimitOrderBook} {ref : Nat} {s : Side}
    {price volume ts : Nat} {attr : Option Nat}
    (hfree : refFree b ref) (hs : sortedBook b) (hne : noEmpty b) :
    ∃ b1, b.add ref s price volume ts attr = .ok b1 ∧
      Tracked b1 ⟨s, price⟩ ⟨ref, volume, ts, attr⟩ := by
  refine ⟨_, add_ok s price volume ts attr hfree.1, ?_⟩
  have hsSide := sorted_sideBook hs s
  constructor
  · simp
  constructor
  · refine ⟨((lookupLevel price (sideBook b s)).getD []) ++ [⟨ref, volume, ts, attr⟩], ?_, ?_⟩
    · show lookupLevel price
        (sideBook { setSide b s (insertOrder s price ⟨ref, volume, ts, attr⟩ (sideBook b s)) with
          index := (ref, ⟨s, price⟩) :: b.index } s) = _
      have : sideBook { setSide b s (insertOrder s price ⟨ref, volume, ts, attr⟩ (sideBook b s)) with
          index := (ref, ⟨s, price⟩) :: b.index } s =
          insertOrder s price ⟨ref, volume, ts, attr⟩ (sideBook b s) := by
        cases s <;> rfl
      rw [this]
      exact lookupLevel_insertOrder_self hsSide
    · rw [levelFilter_append]
      have h2 : levelFilter ref ((lookupLevel price (sideBook b s)).getD []) = [] := by
        cases hl : lookupLevel price (sideBook b s) with
        | none => simp
        | some lvl =>
          simp
          exact refFree_sideBook hfree s (price, lvl) (lookupLevel_mem hl)
      rw [h2]
      simp
  constructor
  · exact sortedBook_setIndex _ (sortedBook_setSide hs (insertOrder_sorted hsSide))
  · exact noEmpty_setIndex _ (noEmpty_setSide hne (insertOrder_noEmpty (noEmpty_sideBook hne s)))

/- ------------------------------------------------------------------
   Lemmas: execute and cancel steps on a tracked order
   ------------------------------------------------------------------ -/

/-- A strictly smaller execution or cancellation decrements the
tracked order's remaining volume in place. -/
theorem execCore_below {b : LimitOrderBook} {e : IndexEntry} {o : Order} {shares : Nat}
    (err : BookError) (ht : Tracked b e o) (hlt : shares < o.volume) :
    execCore b o.ref shares err =
      .ok (setSide b e.side (updateLevel e.price (decOrder o.ref shares) (sideBook b e.side))) ∧
    Tracked (setSide b e.side (updateLevel e.price (decOrder o.ref shares) (sideBook b e.side)))
      e { o with volume := o.volume - shares } := by
  obtain ⟨hidx, ⟨lvl, hlvl, hfilt⟩, hs, hne⟩ := ht
  obtain ⟨hfind, -⟩ := findOrder_of_filter_singleton hfilt
  have hlvl_ne : lvl ≠ [] := by
    intro h
    rw [h] at hfilt
    simp at hfilt
  have hdec_ne : decOrder o.ref shares lvl ≠ [] := decOrder_ne_nil hlvl_ne
  have hgt : ¬ shares > o.volume := by omega
  have heq : ¬ shares = o.volume := by omega
  constructor
  · simp [execCore, hidx, hlvl, hfind, hgt, heq]
  · constructor
    · simp [hidx]
    constructor
    · refine ⟨decOrder o.ref shares lvl, ?_, ?_⟩
      · rw [sideBook_setSide_same]
        exact lookupLevel_updateLevel_self (sorted_sideBook hs e.side) hlvl hdec_ne
      · rw [levelFilter_decOrder_eq, hfilt]
        rfl
    constructor
    · exact sortedBook_setSide hs (updateLevel_sorted (sorted_sideBook hs e.side))
    · exact noEmpty_setSide hne (updateLevel_noEmpty (noEmpty_sideBook hne e.side))

/-- An execution or cancellation of exactly the remaining volume
removes the tracked order from its level and from the index, removing
the level itself when it empties. -/
theorem execCore_full {b : LimitOrderBook} {e : IndexEntry} {o : Order} {shares : Nat}
    (err : BookError) (ht : Tracked b e o) (heq : shares = o.volume) :
    (∃ b2, execCore b o.ref shares err = .ok b2 ∧ Removed b2 e o.ref) := by
  obtain ⟨hidx, ⟨lvl, hlvl, hfilt⟩, hs, hne⟩ := ht
  obtain ⟨hfind, -⟩ := findOrder_of_filter_singleton hfilt
  have hgt : ¬ shares > o.volume := by omega
  refine ⟨{ setSide b e.side (updateLevel e.price (removeOrder o.ref) (sideBook b e.side)) with
            index := removeIndex o.ref b.index }, ?_, ?_⟩
  · simp [execCore, hidx, hlvl, hfind, hgt, heq]
  · constructor
    · simp
    constructor
    · intro lvl2 hlvl2
      by_cases hrm : removeOrder o.ref lvl = []
      · have : lookupLevel e.price (sideBook
            { setSide b e.side (updateLevel e.price (removeOrder o.ref) (sideBook b e.side)) with
              index := removeIndex o.ref b.index } e.side) = none := by
          have h2 : sideBook
              { setSide b e.side (updateLevel e.price (removeOrder o.ref) (sideBook b e.side)) with
                index := removeIndex o.ref b.index } e.side =
              updateLevel e.price (removeOrder o.ref) (sideBook b e.side) := by
            cases e.side <;> rfl
          rw [h2]
          exact lookupLevel_updateLevel_self_nil (sorted_sideBook hs e.side) hlvl hrm
        rw [this] at hlvl2
        exact absurd hlvl2 (by simp)
      · have h2 : sideBook
            { setSide b e.side (updateLevel e.price (removeOrder o.ref) (sideBook b e.side)) with
              index := removeIndex o.ref b.index } e.side =
            updateLevel e.price (removeOrder o.ref) (sideBook b e.side) := by
          cases e.side <;> rfl
        rw [h2] at hlvl2
        rw [lookupLevel_updateLevel_self (sorted_sideBook hs e.side) hlvl hrm] at hlvl2
        have h3 : lvl2 = removeOrder o.ref lvl := by
          injection hlvl2 with h4
          exact h4.symm
        rw [h3]
        exact levelFilter_removeOrder o.ref lvl
    constructor
    · exact sortedBook_setIndex _
        (sortedBook_setSide hs (updateLevel_sorted (sorted_sideBook hs e.side)))
    · exact noEmpty_setIndex _
        (noEmpty_setSide hne (updateLevel_noEmpty (noEmpty_sideBook hne e.side)))

/-- One execute or cancel step, strictly below the remaining volume. -/
theorem applyOp_tracked_partial {b : LimitOrderBook} {e : IndexEntry} {o : Order}
    {op : ExecCancelOp} (ht : Tracked b e o) (hlt : opShares op < o.volume) :
    ∃ b2, applyOp o.ref b op = .ok b2 ∧
      Tracked b2 e { o with volume := o.volume - opShares op } := by
  cases op with
  | exec sh mn =>
    have h := @execCore_below b e o _ .OverExecuted ht hlt
    exact ⟨_, h.1, h.2⟩
  | cxl sh =>
    have h := @execCore_below b e o _ .OverCancelled ht hlt
    exact ⟨_, h.1, h.2⟩

/-- One execute or cancel step of exactly the remaining volume. -/
theorem applyOp_tracked_full {b : LimitOrderBook} {e : IndexEntry} {o : Order}
    {op : ExecCancelOp} (ht : Tracked b e o) (heq : opShares op = o.volume) :
    ∃ b2, applyOp o.ref b op = .ok b2 ∧ Removed b2 e o.ref := by
  cases op with
  | exec sh mn => exact execCore_full .OverExecuted ht heq
  | cxl sh => exact execCore_full .OverCancelled ht heq

/-- A positive-share sequence summing to zero is empty. -/
theorem ops_nil_of_sum_zero {ops : List ExecCancelOp}
    (hpos : ∀ op ∈ ops, 0 < opShares op) (hsum : (ops.map opShares).sum = 0) :
    ops = [] := by
  cases ops with
  | nil => rfl
  | cons op rest =>
    have h1 : 0 < opShares op := hpos op (List.mem_cons_self _ _)
    simp at hsum
    omega

/-- Folding a positive execute/cancel sequence over a tracked order:
the remaining volume drops by the running sum, and when the sum
reaches the order's volume the order leaves the index and its level. -/
theorem applyOps_tracked {ops : List ExecCancelOp} {b : LimitOrderBook}
    {e : IndexEntry} {o : Order}
    (ht : Tracked b e o) (hvol : 0 < o.volume)
    (hpos : ∀ op ∈ ops, 0 < opShares op)
    (hsum : (ops.map opShares).sum ≤ o.volume) :
    ∃ b2, applyOps o.ref b ops = .ok b2 ∧
      ((ops.map opShares).sum < o.volume →
        Tracked b2 e { o with volume := o.volume - (ops.map opShares).sum }) ∧
      ((ops.map opShares).sum = o.volume → Removed b2 e o.ref) := by
  induction ops generalizing b o with
  | nil =>
    refine ⟨b, rfl, ?_, ?_⟩
    · intro h
      simpa using ht
    · intro h
      simp at h
      omega
  | cons op rest ih =>
    have hop : 0 < opShares op := hpos op (List.mem_cons_self _ _)
    have hrestpos : ∀ op2 ∈ rest, 0 < opShares op2 :=
      fun op2 h2 => hpos op2 (List.mem_cons_of_mem _ h2)
    simp at hsum
    by_cases hcase : opShares op < o.volume
    · obtain ⟨b1, hstep, ht1⟩ := applyOp_tracked_partial ht hcase
      have hvol1 : 0 < ({ o with volume := o.volume - opShares op } : Order).volume := by
        simp
        omega
      have hsum1 : (rest.map opShares).sum ≤
          ({ o with volume := o.volume - opShares op } : Order).volume := by
        simp
        omega
      obtain ⟨b2, hfold, hpart, hfull⟩ := ih ht1 hvol1 hrestpos hsum1
      refine ⟨b2, ?_, ?_, ?_⟩
      · simp [applyOps, hstep]
        exact hfold
      · intro hlt
        simp at hlt ⊢
        have h2 := hpart (by simp; omega)
        have h3 : o.volume - (opShares op + (rest.map opShares).sum) =
            o.volume - opShares op - (rest.map opShares).sum := by omega
        rw [h3]
        exact h2
      · intro heq
        simp at heq
        exact hfull (by simp; omega)
    · have heq : opShares op = o.volume := by omega
      obtain ⟨b1, hstep, hrm⟩ := applyOp_tracked_full ht heq
      have hrest0 : (rest.map opShares).sum = 0 := by omega
      have hrestnil : rest = [] := ops_nil_of_sum_zero hrestpos hrest0
      subst hrestnil
      refine ⟨b1, ?_, ?_, ?_⟩
      · simp [applyOps, hstep]
      · intro hlt
        simp at hlt
        omega
      · intro h
        exact hrm

/-- The remaining volume of a tracked order is observable. -/
theorem remainingVolume_of_tracked {b : LimitOrderBook} {e : IndexEntry} {o : Order}
    (ht : Tracked b e o) : remainingVolume b o.ref = some o.volume := by
  obtain ⟨hidx, ⟨lvl, hlvl, hfilt⟩, -, -⟩ := ht
  obtain ⟨hfind, -⟩ := findOrder_of_filter_singleton hfilt
  simp [remainingVolume, orderLoc, hidx, hlvl, hfind]

/-- C1: for every order added with initial volume V followed by any
sequence of positive execute and cancel steps on that order whose
share amounts sum to s with s ≤ V, the steps all succeed and the
order's remaining volume equals V − s; and when s = V the order is
absent from the OrderIndex and from its price level, any surviving
level at that price being nonempty (an emptied level is removed). -/
theorem claim1_add_exec_cancel_conservation
    (b : LimitOrderBook) (ref : Nat) (s : Side) (price volume ts : Nat) (attr : Option Nat)
    (ops : List ExecCancelOp)
    (hfree : refFree b ref) (hsorted : sortedBook b) (hnoempty : noEmpty b)
    (hvol : 0 < volume)
    (hpos : ∀ op ∈ ops, 0 < opShares op)
    (hsum : (ops.map opShares).sum ≤ volume) :
    ∃ b1 b2, b.add ref s price volume ts attr = .ok b1 ∧
      applyOps ref b1 ops = .ok b2 ∧
      ((ops.map opShares).sum < volume →
        remainingVolume b2 ref = some (volume - (ops.map opShares).sum)) ∧
      ((ops.map opShares).sum = volume →
        lookupRef ref b2.index = none ∧
        (∀ lvl, lookupLevel price (sideBook b2 s) = some lvl →
          levelFilter ref lvl = [] ∧ lvl ≠ [])) := by
  obtain ⟨b1, hadd, ht⟩ :=
    @add_tracked b ref s price volume ts attr hfree hsorted hnoempty
  obtain ⟨b2, hfold, hpart, hfull⟩ := applyOps_tracked ht hvol hpos hsum
  refine ⟨b1, b2, hadd, hfold, ?_, ?_⟩
  · intro hlt
    have h2 := hpart hlt
    have h3 := remainingVolume_of_tracked h2
    simpa using h3
  · intro heq
    obtain ⟨hidx, hlvl, hsrt, hnem⟩ := hfull heq
    refine ⟨hidx, ?_⟩
    intro lvl h2
    refine ⟨hlvl lvl h2, ?_⟩
    exact noEmpty_sideBook hnem s (price, lvl) (lookupLevel_mem h2)

/-- Witness for C1: the spec's scenario — add ref 1 for 500 shares,
execute 200, cancel 300 — fully consumes the order. -/
theorem claim1_witness :
    ∃ b1 b2, emptyBook.add 1 .Bid 10000 500 1000 none = .ok b1 ∧
      applyOps 1 b1 [.exec 200 1, .cxl 300] = .ok b2 ∧
      (([ExecCancelOp.exec 200 1, .cxl 300].map opShares).sum < 500 →
        remainingVolume b2 1 = some (500 - ([ExecCancelOp.exec 200 1, .cxl 300].map opShares).sum)) ∧
      (([ExecCancelOp.exec 200 1, .cxl 300].map opShares).sum = 500 →
        lookupRef 1 b2.index = none ∧
        (∀ lvl, lookupLevel 10000 (sideBook b2 .Bid) = some lvl →
          levelFilter 1 lvl = [] ∧ lvl ≠ [])) :=
  claim1_add_exec_cancel_conservation emptyBook 1 .Bid 10000 500 1000 none
    [.exec 200 1, .cxl 300] (by decide) (by decide) (by decide) (by decide)
    (by decide) (by decide)

/- ------------------------------------------------------------------
   Lemmas: replace as delete-then-add (C2)
   ------------------------------------------------------------------ -/

@[simp] theorem sideBook_setIndex (b : LimitOrderBook) (idx : List (Nat × IndexEntry))
    (s : Side) : sideBook { b with index := idx } s = sideBook b s := by
  cases s <;> rfl

theorem findOrder_ref {r : Nat} {lvl : Level} {o : Order}
    (h : findOrder r lvl = some o) : o.ref = r := by
  induction lvl with
  | nil => simp at h
  | cons o2 rest ih =>
    by_cases h2 : o2.ref = r
    · simp [h2] at h
      rw [← h]
      exact h2
    · simp [h2] at h
      exact ih h

theorem orderLoc_eq {b : LimitOrderBook} {r : Nat} {e : IndexEntry} {o : Order}
    (h : orderLoc b r = some (e, o)) :
    lookupRef r b.index = some e ∧
    ∃ lvl, lookupLevel e.price (sideBook b e.side) = some lvl ∧ findOrder r lvl = some o := by
  cases h1 : lookupRef r b.index with
  | none => simp [orderLoc, h1] at h
  | some e2 =>
    cases h2 : lookupLevel e2.price (sideBook b e2.side) with
    | none => simp [orderLoc, h1, h2] at h
    | some lvl =>
      cases h3 : findOrder r lvl with
      | none => simp [orderLoc, h1, h2, h3] at h
      | some o2 =>
        have h5 := h
        simp only [orderLoc, h1, h2, h3, Option.map] at h5
        rw [Option.some.injEq, Prod.mk.injEq] at h5
        obtain ⟨he, ho⟩ := h5
        subst he
        subst ho
        exact ⟨rfl, lvl, h2, h3⟩

theorem levelFilter_removeOrder_other {r r2 : Nat} {lvl : Level}
    (h : levelFilter r lvl = []) : levelFilter r (removeOrder r2 lvl) = [] := by
  induction lvl with
  | nil => rfl
  | cons o rest ih =>
    by_cases ha : o.ref = r
    · simp [ha] at h
    · simp [ha] at h
      by_cases hb : o.ref = r2 <;> simp [ha, hb, ih h]

theorem findOrder_append_of_filter_nil {r : Nat} {L rest : Level}
    (h : levelFilter r L = []) : findOrder r (L ++ rest) = findOrder r rest := by
  induction L with
  | nil => simp
  | cons o L2 ih =>
    by_cases ha : o.ref = r
    · simp [ha] at h
    · simp [ha] at h ⊢
      exact ih h

theorem lastOrder_append (L : Level) (x : Order) : lastOrder (L ++ [x]) = some x := by
  induction L with
  | nil => rfl
  | cons a t ih =>
    cases t with
    | nil => rfl
    | cons a2 t2 =>
      show lastOrder ((a2 :: t2) ++ [x]) = some x
      exact ih

/-- The success equation of replace: with the old order located, the
replace is the delete followed by the add on the intermediate book. -/
theorem replace_ok {b : LimitOrderBook} {oldRef : Nat} {e : IndexEntry} {o : Order}
    (newRef volume price ts : Nat)
    (hloc : orderLoc b oldRef = some (e, o)) :
    b.replace oldRef newRef volume price ts =
      LimitOrderBook.add
        { setSide b e.side (updateLevel e.price (removeOrder oldRef) (sideBook b e.side)) with
          index := removeIndex oldRef b.index }
        newRef e.side price volume ts o.attribution := by
  simp only [LimitOrderBook.replace, hloc, setSide_index]

/-- C2 helper: replace computes delete-then-add, unconditionally. -/
theorem replace_eq_deleteThenAdd (b : LimitOrderBook)
    (oldRef newRef volume price ts : Nat) :
    b.replace oldRef newRef volume price ts =
      deleteThenAdd b oldRef newRef volume price ts := by
  cases h1 : orderLoc b oldRef with
  | none => simp only [LimitOrderBook.replace, deleteThenAdd, h1]
  | some pr =>
    obtain ⟨e, o⟩ := pr
    obtain ⟨hidx, lvl, hlvl, hfind⟩ := orderLoc_eq h1
    simp only [LimitOrderBook.replace, deleteThenAdd, h1, LimitOrderBook.delete, hidx,
      setSide_index]

/-- C2: replace(old_ref, new_ref, new_volume, new_price) computes
exactly delete(old_ref) followed by add(new_ref) with the old order's
side and attribution, the new price and volume and the replace
message's timestamp; and when old_ref is live and new_ref absent the
replace succeeds, old_ref leaves the index and its price level, and
the new order sits at the FIFO tail of its level at the new price with
the replace message's timestamp. -/
theorem claim2_replace_is_delete_then_add
    (b : LimitOrderBook) (oldRef newRef volume price ts : Nat)
    (e : IndexEntry) (o : Order)
    (hloc : orderLoc b oldRef = some (e, o))
    (hnew : refFree b newRef)
    (hsorted : sortedBook b) :
    b.replace oldRef newRef volume price ts = deleteThenAdd b oldRef newRef volume price ts ∧
    ∃ b2, b.replace oldRef newRef volume price ts = .ok b2 ∧
      lookupRef oldRef b2.index = none ∧
      lookupRef newRef b2.index = some ⟨e.side, price⟩ ∧
      remainingVolume b2 newRef = some volume ∧
      (∃ lvl, lookupLevel price (sideBook b2 e.side) = some lvl ∧
        lastOrder lvl = some ⟨newRef, volume, ts, o.attribution⟩) ∧
      (∀ lvl, lookupLevel e.price (sideBook b2 e.side) = some lvl →
        levelFilter oldRef lvl = []) := by
  obtain ⟨hidx, lvl, hlvl, hfind⟩ := orderLoc_eq hloc
  have hrefnew : oldRef ≠ newRef := by
    intro h
    rw [h, hnew.1] at hidx
    simp at hidx
  refine ⟨replace_eq_deleteThenAdd b oldRef newRef volume price ts, ?_⟩
  have hsortside := sorted_sideBook hsorted e.side
  have hsort2 : List.Pairwise (fun x y => priceBefore e.side x.1 y.1 = true)
      (updateLevel e.price (removeOrder oldRef) (sideBook b e.side)) :=
    updateLevel_sorted hsortside
  have hnewidx : lookupRef newRef (removeIndex oldRef b.index) = none := by
    rw [lookupRef_removeIndex_ne _ (fun h => hrefnew h.symm)]
    exact hnew.1
  have hLfree : levelFilter newRef
      ((lookupLevel price (updateLevel e.price (removeOrder oldRef) (sideBook b e.side))).getD [])
      = [] := by
    by_cases hpp : price = e.price
    · subst hpp
      by_cases hrm : removeOrder oldRef lvl = []
      · rw [lookupLevel_updateLevel_self_nil hsortside hlvl hrm]
        rfl
      · rw [lookupLevel_updateLevel_self hsortside hlvl hrm]
        have hfree0 : levelFilter newRef lvl = [] :=
          refFree_sideBook hnew e.side (e.price, lvl) (lookupLevel_mem hlvl)
        simpa using levelFilter_removeOrder_other hfree0
    · rw [lookupLevel_updateLevel_ne hpp]
      cases hl2 : lookupLevel price (sideBook b e.side) with
      | none => rfl
      | some L =>
        simpa using refFree_sideBook hnew e.side (price, L) (lookupLevel_mem hl2)
  have hrepl := replace_ok newRef volume price ts hloc
  rw [add_ok e.side price volume ts o.attribution (by simpa using hnewidx)] at hrepl
  refine ⟨_, hrepl, ?_, ?_, ?_, ?_, ?_⟩
  · simp [hrefnew, lookupRef_removeIndex_ne _ hrefnew]
  · simp
  · simp [remainingVolume, orderLoc, lookupLevel_insertOrder_self hsort2,
      findOrder_append_of_filter_nil hLfree]
  · refine ⟨((lookupLevel price (updateLevel e.price (removeOrder oldRef)
        (sideBook b e.side))).getD []) ++ [⟨newRef, volume, ts, o.attribution⟩], ?_, ?_⟩
    · simp only [sideBook_setIndex, sideBook_setSide_same]
      exact lookupLevel_insertOrder_self hsort2
    · exact lastOrder_append _ _
  · intro lvl2 hlvl2
    simp only [sideBook_setIndex, sideBook_setSide_same] at hlvl2
    by_cases hpp : price = e.price
    · subst hpp
      rw [lookupLevel_insertOrder_self hsort2] at hlvl2
      have hLold : levelFilter oldRef
          ((lookupLevel e.price (updateLevel e.price (removeOrder oldRef)
            (sideBook b e.side))).getD []) = [] := by
        by_cases hrm : removeOrder oldRef lvl = []
        · rw [lookupLevel_updateLevel_self_nil hsortside hlvl hrm]
          rfl
        · rw [lookupLevel_updateLevel_self hsortside hlvl hrm]
          simp
      have h3 : lvl2 = ((lookupLevel e.price (updateLevel e.price (removeOrder oldRef)
          (sideBook b e.side))).getD []) ++ [⟨newRef, volume, ts, o.attribution⟩] :=
        (Option.some.inj hlvl2).symm
      rw [h3, levelFilter_append, hLold]
      simp [Ne.symm hrefnew]
    · rw [lookupLevel_insertOrder_ne (fun h => hpp h.symm)] at hlvl2
      by_cases hrm : removeOrder oldRef lvl = []
      · rw [lookupLevel_updateLevel_self_nil hsortside hlvl hrm] at hlvl2
        simp at hlvl2
      · rw [lookupLevel_updateLevel_self hsortside hlvl hrm] at hlvl2
        have h3 : lvl2 = removeOrder oldRef lvl := (Option.some.inj hlvl2).symm
        rw [h3]
        simp

/-- Witness for C2: the spec's scenario 3 — ask order ref 10 at
101.00 for 100 shares replaced by ref 11 at 100.50 for 150 shares at
timestamp 2100. -/
theorem claim2_witness :
    ((⟨[], [(1010000, [⟨10, 100, 2000, none⟩])], [(10, ⟨.Ask, 1010000⟩)]⟩ :
        LimitOrderBook).replace 10 11 150 1005000 2100 =
      deleteThenAdd ⟨[], [(1010000, [⟨10, 100, 2000, none⟩])], [(10, ⟨.Ask, 1010000⟩)]⟩
        10 11 150 1005000 2100) ∧
    ∃ b2, (⟨[], [(1010000, [⟨10, 100, 2000, none⟩])], [(10, ⟨.Ask, 1010000⟩)]⟩ :
        LimitOrderBook).replace 10 11 150 1005000 2100 = .ok b2 ∧
      lookupRef 10 b2.index = none ∧
      lookupRef 11 b2.index = some ⟨Side.Ask, 1005000⟩ ∧
      remainingVolume b2 11 = some 150 ∧
      (∃ lvl, lookupLevel 1005000 (sideBook b2 .Ask) = some lvl ∧
        lastOrder lvl = some ⟨11, 150, 2100, none⟩) ∧
      (∀ lvl, lookupLevel 1010000 (sideBook b2 .Ask) = some lvl →
        levelFilter 10 lvl = []) :=
  claim2_replace_is_delete_then_add
    ⟨[], [(1010000, [⟨10, 100, 2000, none⟩])], [(10, ⟨.Ask, 1010000⟩)]⟩
    10 11 150 1005000 2100 ⟨.Ask, 1010000⟩ ⟨10, 100, 2000, none⟩
    (by decide) (by decide) (by decide)

/- ------------------------------------------------------------------
   Lemmas: error conditions (C5)
   ------------------------------------------------------------------ -/

theorem coherent_resolve {b : LimitOrderBook} {r : Nat} {e : IndexEntry}
    (hco : coherent b) (h : lookupRef r b.index = some e) :
    ∃ lvl o, lookupLevel e.price (sideBook b e.side) = some lvl ∧ findOrder r lvl = some o := by
  have h2 := hco (r, e) (lookupRef_mem h)
  cases h3 : lookupLevel e.price (sideBook b e.side) with
  | none => simp [coherentAt, h3] at h2
  | some lvl =>
    cases h4 : findOrder r lvl with
    | none => simp [coherentAt, h3, h4] at h2
    | some o => exact ⟨lvl, o, rfl, h4⟩

theorem orderLoc_none {b : LimitOrderBook} {r : Nat} (hco : coherent b)
    (h : orderLoc b r = none) : lookupRef r b.index = none := by
  cases h1 : lookupRef r b.index with
  | none => rfl
  | some e =>
    obtain ⟨lvl, o, h2, h3⟩ := coherent_resolve hco h1
    simp [orderLoc, h1, h2, h3] at h

theorem remainingVolume_resolve {b : LimitOrderBook} {r : Nat} {e : IndexEntry}
    {lvl : Level} {o : Order} (h1 : lookupRef r b.index = some e)
    (h2 : lookupLevel e.price (sideBook b e.side) = some lvl)
    (h3 : findOrder r lvl = some o) : remainingVolume b r = some o.volume := by
  simp [remainingVolume, orderLoc, h1, h2, h3]

/-- execCore error classification, assuming the over-consumption error
is not UnknownRef (which holds for both execute and cancel). -/
theorem execCore_errors {b : LimitOrderBook} {r shares : Nat} {err2 : BookError}
    (hco : coherent b) (hne : err2 ≠ .UnknownRef) :
    (execCore b r shares err2 = .error .UnknownRef ↔ lookupRef r b.index = none) ∧
    (execCore b r shares err2 = .error err2 ↔
      ∃ v, remainingVolume b r = some v ∧ shares > v) ∧
    (∀ err, execCore b r shares err2 = .error err → err = .UnknownRef ∨ err = err2) := by
  cases h1 : lookupRef r b.index with
  | none =>
    have hrem : remainingVolume b r = none := by
      simp [remainingVolume, orderLoc, h1]
    refine ⟨?_, ?_, ?_⟩
    · simp [execCore, h1]
    · simp [execCore, h1, hrem]
      intro h
      exact absurd h.symm hne
    · intro err h
      simp [execCore, h1] at h
      left
      exact h.symm
  | some e =>
    obtain ⟨lvl, o, h2, h3⟩ := coherent_resolve hco h1
    have hrem := remainingVolume_resolve h1 h2 h3
    by_cases hgt : shares > o.volume
    · refine ⟨?_, ?_, ?_⟩
      · simp [execCore, h1, h2, h3, hgt, h1]
        intro h
        exact absurd h hne
      · simp [execCore, h1, h2, h3, hgt]
        exact ⟨o.volume, hrem, hgt⟩
      · intro err h
        simp [execCore, h1, h2, h3, hgt] at h
        right
        exact h.symm
    · have hok : ∃ b2, execCore b r shares err2 = .ok b2 := by
        by_cases heq : shares = o.volume
        · exact ⟨{ setSide b e.side (updateLevel e.price (removeOrder r) (sideBook b e.side)) with
              index := removeIndex r b.index },
            by simp [execCore, h1, h2, h3, hgt, heq]⟩
        · exact ⟨setSide b e.side (updateLevel e.price (decOrder r shares) (sideBook b e.side)),
            by simp [execCore, h1, h2, h3, hgt, heq]⟩
      obtain ⟨b2, hok⟩ := hok
      refine ⟨?_, ?_, ?_⟩
      · rw [hok]
        simp [h1]
      · rw [hok]
        simp [hrem]
        omega
      · intro err h
        rw [hok] at h
        simp at h

/-- C5: each book operation raises exactly the specified error under
exactly the specified precondition: add raises DuplicateRef iff the
ref is already live; execute, execute_with_price, cancel, delete and
replace raise UnknownRef iff the referenced order is not in the index;
execute raises OverExecuted iff shares > remaining; cancel raises
OverCancelled iff shares > remaining; and no operation raises any
other error.  Every operation is a pure function returning either the
error or the mutated book, so an erroring operation leaves the caller's
book unchanged. -/
theorem claim5_error_conditions (b : LimitOrderBook) (hco : coherent b) :
    (∀ ref s price volume ts attr,
      (b.add ref s price volume ts attr = .error .DuplicateRef ↔
        (lookupRef ref b.index).isSome = true) ∧
      (∀ err, b.add ref s price volume ts attr = .error err → err = .DuplicateRef)) ∧
    (∀ ref shares mn,
      (b.execute ref shares mn = .error .UnknownRef ↔ lookupRef ref b.index = none) ∧
      (b.execute ref shares mn = .error .OverExecuted ↔
        ∃ v, remainingVolume b ref = some v ∧ shares > v) ∧
      (∀ err, b.execute ref shares mn = .error err →
        err = .UnknownRef ∨ err = .OverExecuted)) ∧
    (∀ ref shares pr price mn,
      (b.execute_with_price ref shares pr price mn = .error .UnknownRef ↔
        lookupRef ref b.index = none)) ∧
    (∀ ref shares,
      (b.cancel ref shares = .error .UnknownRef ↔ lookupRef ref b.index = none) ∧
      (b.cancel ref shares = .error .OverCancelled ↔
        ∃ v, remainingVolume b ref = some v ∧ shares > v) ∧
      (∀ err, b.cancel ref shares = .error err →
        err = .UnknownRef ∨ err = .OverCancelled)) ∧
    (∀ ref,
      (b.delete ref = .error .UnknownRef ↔ lookupRef ref b.index = none) ∧
      (∀ err, b.delete ref = .error err → err = .UnknownRef)) ∧
    (∀ oldRef newRef volume price ts,
      (b.replace oldRef newRef volume price ts = .error .UnknownRef ↔
        lookupRef oldRef b.index = none)) := by
  refine ⟨?_, ?_, ?_, ?_, ?_, ?_⟩
  · intro ref s price volume ts attr
    cases h1 : lookupRef ref b.index with
    | none =>
      constructor
      · simp [LimitOrderBook.add, h1]
      · intro err h
        simp [LimitOrderBook.add, h1] at h
    | some e =>
      constructor
      · simp [LimitOrderBook.add, h1]
      · intro err h
        simp [LimitOrderBook.add, h1] at h
        exact h.symm
  · intro ref shares mn
    exact execCore_errors hco (by simp)
  · intro ref shares pr price mn
    exact (@execCore_errors b ref shares .OverExecuted hco (by simp)).1
  · intro ref shares
    exact execCore_errors hco (by simp)
  · intro ref
    cases h1 : lookupRef ref b.index with
    | none =>
      constructor
      · simp [LimitOrderBook.delete, h1]
      · intro err h
        simp [LimitOrderBook.delete, h1] at h
        exact h.symm
    | some e =>
      constructor
      · simp [LimitOrderBook.delete, h1]
      · intro err h
        simp [LimitOrderBook.delete, h1] at h
  · intro oldRef newRef volume price ts
    cases h1 : orderLoc b oldRef with
    | none =>
      rw [orderLoc_none hco h1]
      simp [LimitOrderBook.replace, h1]
    | some pr =>
      obtain ⟨e, o⟩ := pr
      obtain ⟨hidx, lvl2, hlvl2, hfind2⟩ := orderLoc_eq h1
      rw [hidx]
      simp only [LimitOrderBook.replace, h1]
      constructor
      · intro h
        cases h2 : lookupRef newRef (removeIndex oldRef b.index) with
        | none => simp [LimitOrderBook.add, h2] at h
        | some e2 => simp [LimitOrderBook.add, h2] at h
      · intro h
        simp at h

/-- Witness for C5: a concrete coherent one-order book — executing 600
shares against a 500-share order is OverExecuted, and re-adding a live
reference is DuplicateRef. -/
theorem claim5_witness :
    ((⟨[(10000, [⟨1, 500, 1000, none⟩])], [], [(1, ⟨.Bid, 10000⟩)]⟩ :
        LimitOrderBook).execute 1 600 9 = .error .OverExecuted ↔
      ∃ v, remainingVolume
        ⟨[(10000, [⟨1, 500, 1000, none⟩])], [], [(1, ⟨.Bid, 10000⟩)]⟩ 1 = some v ∧ 600 > v) ∧
    ((⟨[(10000, [⟨1, 500, 1000, none⟩])], [], [(1, ⟨.Bid, 10000⟩)]⟩ :
        LimitOrderBook).add 1 .Bid 10000 10 1 none = .error .DuplicateRef ↔
      (lookupRef 1 (⟨[(10000, [⟨1, 500, 1000, none⟩])], [], [(1, ⟨.Bid, 10000⟩)]⟩ :
        LimitOrderBook).index).isSome = true) :=
  ⟨((claim5_error_conditions
      ⟨[(10000, [⟨1, 500, 1000, none⟩])], [], [(1, ⟨.Bid, 10000⟩)]⟩
      (by decide)).2.1 1 600 9).2.1,
   ((claim5_error_conditions
      ⟨[(10000, [⟨1, 500, 1000, none⟩])], [], [(1, ⟨.Bid, 10000⟩)]⟩
      (by decide)).1 1 .Bid 10000 10 1 none).1⟩

/- ------------------------------------------------------------------
   Lemmas: FIFO shape preservation (C6)
   ------------------------------------------------------------------ -/

theorem findOrder_ne_nil {r : Nat} {lvl : Level} {o : Order}
    (h : findOrder r lvl = some o) : lvl ≠ [] := by
  cases lvl with
  | nil => simp at h
  | cons a t => simp

theorem shapeSB_updateLevel_decOrder {p r shares : Nat} {sb : SideBook} {lvl : Level}
    (hl : lookupLevel p sb = some lvl) (hne : lvl ≠ []) :
    shapeSB (updateLevel p (decOrder r shares) sb) = shapeSB sb := by
  induction sb with
  | nil => simp at hl
  | cons hd rest ih =>
    obtain ⟨q, l⟩ := hd
    by_cases hpq : p = q
    · simp [hpq] at hl
      rw [← hl] at hne
      have hdec : decOrder r shares l ≠ [] := decOrder_ne_nil hne
      rw [updateLevel_eq_of_eq _ l rest hpq hdec]
      simp [shapeSB, decOrder_refs]
    · simp [hpq] at hl
      rw [updateLevel_eq_of_ne _ l rest hpq]
      simp [shapeSB] at ih ⊢
      exact ih hl

/-- A strictly partial execute or cancel step preserves the complete
(price, FIFO reference queue) shape of both sides, and the index. -/
theorem execCore_partial_shape {b : LimitOrderBook} {r shares : Nat} {err2 : BookError}
    {b2 : LimitOrderBook} {v : Nat}
    (h : execCore b r shares err2 = .ok b2) (hv : remainingVolume b r = some v)
    (hlt : shares < v) : refsShape b2 = refsShape b ∧ b2.index = b.index := by
  cases hloc : orderLoc b r with
  | none => simp [remainingVolume, hloc] at hv
  | some pr =>
    obtain ⟨e, o⟩ := pr
    obtain ⟨h1, lvl, h2, h3⟩ := orderLoc_eq hloc
    have hval : o.volume = v := by
      simp [remainingVolume, hloc] at hv
      exact hv
    have hgt : ¬ shares > o.volume := by omega
    have hne : ¬ shares = o.volume := by omega
    have hb2 : b2 = setSide b e.side
        (updateLevel e.price (decOrder r shares) (sideBook b e.side)) := by
      have h5 := h
      simp [execCore, h1, h2, h3, hgt, hne] at h5
      exact h5.symm
    subst hb2
    constructor
    · have hshape := @shapeSB_updateLevel_decOrder e.price r shares _ _ h2
        (findOrder_ne_nil h3)
      cases hside : e.side
      · rw [hside] at hshape
        simp [refsShape, setSide]
        exact hshape
      · rw [hside] at hshape
        simp [refsShape, setSide]
        exact hshape
    · simp

/-- A price absent from a side book is still absent after updateLevel
at that price. -/
theorem lookupLevel_updateLevel_none {p : Nat} {f : Level → Level} {sb : SideBook}
    (h : lookupLevel p sb = none) : lookupLevel p (updateLevel p f sb) = none := by
  induction sb with
  | nil => rfl
  | cons hd rest ih =>
    obtain ⟨q, lvl⟩ := hd
    by_cases hpq : p = q
    · simp [hpq] at h
    · have h2 : lookupLevel p rest = none := by simpa [hpq] using h
      rw [updateLevel_eq_of_ne f lvl rest hpq]
      simpa [hpq] using ih h2

/-- Inverting a level lookup through updateLevel on a sorted side
book: an untouched price resolves as before, and the touched price
resolves to the update applied to the old level. -/
theorem lookupLevel_updateLevel_inv {s : Side} {p q : Nat} {f : Level → Level}
    {sb : SideBook} {lvl1 : Level}
    (hs : List.Pairwise (fun x y => priceBefore s x.1 y.1 = true) sb)
    (h : lookupLevel q (updateLevel p f sb) = some lvl1) :
    (q ≠ p ∧ lookupLevel q sb = some lvl1) ∨
    (q = p ∧ ∃ lvl, lookupLevel p sb = some lvl ∧ lvl1 = f lvl) := by
  by_cases hqp : q = p
  · subst hqp
    right
    refine ⟨rfl, ?_⟩
    cases h2 : lookupLevel q sb with
    | none => simp [lookupLevel_updateLevel_none h2] at h
    | some lvl =>
      by_cases hfe : f lvl = []
      · simp [lookupLevel_updateLevel_self_nil hs h2 hfe] at h
      · rw [lookupLevel_updateLevel_self hs h2 hfe] at h
        exact ⟨lvl, rfl, (Option.some.inj h).symm⟩
  · left
    rw [lookupLevel_updateLevel_ne hqp] at h
    exact ⟨hqp, h⟩

/-- Removing a reference keeps a level's reference sequence a
subsequence of the old one. -/
theorem removeOrder_refs_sublist (r : Nat) (lvl : Level) :
    ((removeOrder r lvl).map (fun o => o.ref)).Sublist (lvl.map (fun o => o.ref)) :=
  (removeOrder_sublist r lvl).map _

/-- Decrementing a volume keeps a level's reference sequence
unchanged, in particular a subsequence. -/
theorem decOrder_refs_sublist (r shares : Nat) (lvl : Level) :
    ((decOrder r shares lvl).map (fun o => o.ref)).Sublist (lvl.map (fun o => o.ref)) := by
  rw [decOrder_refs]

/-- Core survivor lemma: after replacing one side by an updated side
book whose per-level update keeps each reference sequence a
subsequence, every surviving level's reference queue is a subsequence
of the level at the same price in the old book. -/
theorem survivors_setSide_updateLevel {b : LimitOrderBook} {side : Side} {price : Nat}
    {f : Level → Level}
    (hs : sortedBook b)
    (hf : ∀ lvl, ((f lvl).map (fun o => o.ref)).Sublist (lvl.map (fun o => o.ref)))
    (s : Side) (p : Nat) (lvl1 : Level)
    (h : lookupLevel p
      (sideBook (setSide b side (updateLevel price f (sideBook b side))) s) = some lvl1) :
    ∃ lvl, lookupLevel p (sideBook b s) = some lvl ∧
      (lvl1.map (fun o => o.ref)).Sublist (lvl.map (fun o => o.ref)) := by
  by_cases hss : s = side
  · rw [hss] at h ⊢
    rw [sideBook_setSide_same] at h
    rcases lookupLevel_updateLevel_inv (sorted_sideBook hs side) h with
      ⟨-, h2⟩ | ⟨hqp, lvl, h2, h3⟩
    · exact ⟨lvl1, h2, List.Sublist.refl _⟩
    · rw [hqp, h3]
      exact ⟨lvl, h2, hf lvl⟩
  · rw [sideBook_setSide_other _ _ hss] at h
    exact ⟨lvl1, h, List.Sublist.refl _⟩

/-- Any successful execute or cancel — partial or full — keeps every
surviving level's reference queue a subsequence of the old level at
the same price. -/
theorem execCore_survivors {b : LimitOrderBook} {ref shares : Nat} {err : BookError}
    {b2 : LimitOrderBook} (hs : sortedBook b) (h : execCore b ref shares err = .ok b2)
    (s : Side) (p : Nat) (lvl1 : Level)
    (hl : lookupLevel p (sideBook b2 s) = some lvl1) :
    ∃ lvl, lookupLevel p (sideBook b s) = some lvl ∧
      (lvl1.map (fun o => o.ref)).Sublist (lvl.map (fun o => o.ref)) := by
  cases h1 : lookupRef ref b.index with
  | none => simp [execCore, h1] at h
  | some e =>
    cases h2 : lookupLevel e.price (sideBook b e.side) with
    | none => simp [execCore, h1, h2] at h
    | some lvl0 =>
      cases h3 : findOrder ref lvl0 with
      | none => simp [execCore, h1, h2, h3] at h
      | some o =>
        by_cases hgt : shares > o.volume
        · simp [execCore, h1, h2, h3, hgt] at h
        · by_cases heq : shares = o.volume
          · have h5 : execCore b ref shares err =
                .ok { setSide b e.side
                        (updateLevel e.price (removeOrder ref) (sideBook b e.side)) with
                      index := removeIndex ref b.index } := by
              simp [execCore, h1, h2, h3, hgt, heq]
            rw [h5] at h
            have hb2 := Except.ok.inj h
            subst hb2
            simp only [sideBook_setIndex] at hl
            exact survivors_setSide_updateLevel hs (removeOrder_refs_sublist ref) s p lvl1 hl
          · have h5 : execCore b ref shares err =
                .ok (setSide b e.side
                  (updateLevel e.price (decOrder ref shares) (sideBook b e.side))) := by
              simp [execCore, h1, h2, h3, hgt, heq]
            rw [h5] at h
            have hb2 := Except.ok.inj h
            subst hb2
            exact survivors_setSide_updateLevel hs (decOrder_refs_sublist ref shares) s p lvl1 hl

/-- A successful delete keeps every surviving level's reference queue
a subsequence of the old level at the same price. -/
theorem delete_survivors {b : LimitOrderBook} {ref : Nat} {b2 : LimitOrderBook}
    (hs : sortedBook b) (h : b.delete ref = .ok b2)
    (s : Side) (p : Nat) (lvl1 : Level)
    (hl : lookupLevel p (sideBook b2 s) = some lvl1) :
    ∃ lvl, lookupLevel p (sideBook b s) = some lvl ∧
      (lvl1.map (fun o => o.ref)).Sublist (lvl.map (fun o => o.ref)) := by
  cases h1 : lookupRef ref b.index with
  | none => simp [LimitOrderBook.delete, h1] at h
  | some e =>
    have h5 : b.delete ref =
        .ok { setSide b e.side (updateLevel e.price (removeOrder ref) (sideBook b e.side)) with
              index := removeIndex ref b.index } := by
      simp [LimitOrderBook.delete, h1]
    rw [h5] at h
    have hb2 := Except.ok.inj h
    subst hb2
    simp only [sideBook_setIndex] at hl
    exact survivors_setSide_updateLevel hs (removeOrder_refs_sublist ref) s p lvl1 hl

/-- A successful replace keeps every surviving level's reference queue
a subsequence of the old queue at the same price, except the level
that receives the replacing order: its queue is such a subsequence
with the new reference appended at the FIFO tail. -/
theorem replace_survivors {b : LimitOrderBook} {oldRef newRef volume price ts : Nat}
    {b2 : LimitOrderBook}
    (hs : sortedBook b) (h : b.replace oldRef newRef volume price ts = .ok b2)
    (s : Side) (p : Nat) (lvl1 : Level)
    (hl : lookupLevel p (sideBook b2 s) = some lvl1) :
    (lvl1.map (fun o => o.ref)).Sublist
        (((lookupLevel p (sideBook b s)).getD []).map (fun o => o.ref)) ∨
    ∃ pre, lvl1.map (fun o => o.ref) = pre ++ [newRef] ∧
      pre.Sublist (((lookupLevel p (sideBook b s)).getD []).map (fun o => o.ref)) := by
  cases hloc : orderLoc b oldRef with
  | none => simp [LimitOrderBook.replace, hloc] at h
  | some pr =>
    obtain ⟨e, o⟩ := pr
    rw [replace_ok newRef volume price ts hloc] at h
    cases hfree : lookupRef newRef (removeIndex oldRef b.index) with
    | some e2 => simp [LimitOrderBook.add, hfree] at h
    | none =>
      rw [@add_ok { setSide b e.side (updateLevel e.price (removeOrder oldRef)
            (sideBook b e.side)) with index := removeIndex oldRef b.index } newRef
          e.side price volume ts o.attribution hfree] at h
      have hb2 := Except.ok.inj h
      subst hb2
      simp only [sideBook_setIndex, sideBook_setSide_same] at hl
      by_cases hss : s = e.side
      · rw [hss] at hl ⊢
        rw [sideBook_setSide_same] at hl
        have hsDel : List.Pairwise (fun x y => priceBefore e.side x.1 y.1 = true)
            (updateLevel e.price (removeOrder oldRef) (sideBook b e.side)) :=
          updateLevel_sorted (sorted_sideBook hs e.side)
        by_cases hpp : p = price
        · rw [hpp] at hl
          rw [lookupLevel_insertOrder_self hsDel] at hl
          have hlvl1 : lvl1 =
              ((lookupLevel price (updateLevel e.price (removeOrder oldRef)
                  (sideBook b e.side))).getD []) ++ [⟨newRef, volume, ts, o.attribution⟩] :=
            (Option.some.inj hl).symm
          rw [hpp]
          right
          refine ⟨((lookupLevel price (updateLevel e.price (removeOrder oldRef)
              (sideBook b e.side))).getD []).map (fun o => o.ref), ?_, ?_⟩
          · rw [hlvl1]
            simp
          · cases hprev : lookupLevel price (updateLevel e.price (removeOrder oldRef)
                (sideBook b e.side)) with
            | none => simp
            | some lvlPrev =>
              rcases lookupLevel_updateLevel_inv (sorted_sideBook hs e.side) hprev with
                ⟨-, h7⟩ | ⟨hpe, lvlOld, h7, h8⟩
              · rw [h7]
              · rw [hpe, h7, h8]
                exact removeOrder_refs_sublist oldRef lvlOld
        · rw [lookupLevel_insertOrder_ne hpp] at hl
          left
          rcases lookupLevel_updateLevel_inv (sorted_sideBook hs e.side) hl with
            ⟨-, h7⟩ | ⟨hpe, lvlOld, h7, h8⟩
          · rw [h7]
            exact List.Sublist.refl _
          · rw [hpe, h7, h8]
            exact removeOrder_refs_sublist oldRef lvlOld
      · rw [sideBook_setSide_other _ _ hss, sideBook_setIndex,
          sideBook_setSide_other _ _ hss] at hl
        left
        rw [hl]
        exact List.Sublist.refl _

/-- C6: within every price level orders keep strict insertion order
after every operation: an add appends the new order at the FIFO tail
of its level; a partial execution or partial cancel changes no
(price, reference queue) shape on either side and no index entry; a
delete, an execution or a cancel of any legal size keeps every
surviving level's reference queue a subsequence of the old queue at
the same price (survivors never reorder); and a replace keeps every
surviving queue such a subsequence except the level receiving the new
order, whose queue is a subsequence of the old one with the new
reference appended at the FIFO tail. -/
theorem claim6_fifo_order_preserved :
    (∀ (b : LimitOrderBook) (ref : Nat) (s : Side) (price volume ts : Nat)
        (attr : Option Nat) (b1 : LimitOrderBook),
      sortedBook b → b.add ref s price volume ts attr = .ok b1 →
      lookupLevel price (sideBook b1 s) =
        some (((lookupLevel price (sideBook b s)).getD []) ++ [⟨ref, volume, ts, attr⟩])) ∧
    (∀ (b : LimitOrderBook) (ref shares mn : Nat) (b2 : LimitOrderBook) (v : Nat),
      b.execute ref shares mn = .ok b2 → remainingVolume b ref = some v → shares < v →
      refsShape b2 = refsShape b ∧ b2.index = b.index) ∧
    (∀ (b : LimitOrderBook) (ref shares : Nat) (b2 : LimitOrderBook) (v : Nat),
      b.cancel ref shares = .ok b2 → remainingVolume b ref = some v → shares < v →
      refsShape b2 = refsShape b ∧ b2.index = b.index) ∧
    (∀ (b : LimitOrderBook) (ref : Nat) (b2 : LimitOrderBook),
      sortedBook b → b.delete ref = .ok b2 →
      ∀ (s : Side) (p : Nat) (lvl1 : Level), lookupLevel p (sideBook b2 s) = some lvl1 →
      ∃ lvl, lookupLevel p (sideBook b s) = some lvl ∧
        (lvl1.map (fun o => o.ref)).Sublist (lvl.map (fun o => o.ref))) ∧
    (∀ (b : LimitOrderBook) (ref shares mn : Nat) (b2 : LimitOrderBook),
      sortedBook b → b.execute ref shares mn = .ok b2 →
      ∀ (s : Side) (p : Nat) (lvl1 : Level), lookupLevel p (sideBook b2 s) = some lvl1 →
      ∃ lvl, lookupLevel p (sideBook b s) = some lvl ∧
        (lvl1.map (fun o => o.ref)).Sublist (lvl.map (fun o => o.ref))) ∧
    (∀ (b : LimitOrderBook) (ref shares : Nat) (printable : Bool) (price mn : Nat)
        (b2 : LimitOrderBook),
      sortedBook b → b.execute_with_price ref shares printable price mn = .ok b2 →
      ∀ (s : Side) (p : Nat) (lvl1 : Level), lookupLevel p (sideBook b2 s) = some lvl1 →
      ∃ lvl, lookupLevel p (sideBook b s) = some lvl ∧
        (lvl1.map (fun o => o.ref)).Sublist (lvl.map (fun o => o.ref))) ∧
    (∀ (b : LimitOrderBook) (ref shares : Nat) (b2 : LimitOrderBook),
      sortedBook b → b.cancel ref shares = .ok b2 →
      ∀ (s : Side) (p : Nat) (lvl1 : Level), lookupLevel p (sideBook b2 s) = some lvl1 →
      ∃ lvl, lookupLevel p (sideBook b s) = some lvl ∧
        (lvl1.map (fun o => o.ref)).Sublist (lvl.map (fun o => o.ref))) ∧
    (∀ (b : LimitOrderBook) (oldRef newRef volume price ts : Nat) (b2 : LimitOrderBook),
      sortedBook b → b.replace oldRef newRef volume price ts = .ok b2 →
      ∀ (s : Side) (p : Nat) (lvl1 : Level), lookupLevel p (sideBook b2 s) = some lvl1 →
      (lvl1.map (fun o => o.ref)).Sublist
          (((lookupLevel p (sideBook b s)).getD []).map (fun o => o.ref)) ∨
      ∃ pre, lvl1.map (fun o => o.ref) = pre ++ [newRef] ∧
        pre.Sublist (((lookupLevel p (sideBook b s)).getD []).map (fun o => o.ref))) := by
  refine ⟨?_, ?_, ?_, ?_, ?_, ?_, ?_, ?_⟩
  · intro b ref s price volume ts attr b1 hsorted hadd
    cases h1 : lookupRef ref b.index with
    | some e => simp [LimitOrderBook.add, h1] at hadd
    | none =>
      rw [add_ok s price volume ts attr h1] at hadd
      have hb1 := Except.ok.inj hadd
      rw [← hb1]
      simp only [sideBook_setIndex, sideBook_setSide_same]
      exact lookupLevel_insertOrder_self (sorted_sideBook hsorted s)
  · intro b ref shares mn b2 v h hv hlt
    exact execCore_partial_shape h hv hlt
  · intro b ref shares b2 v h hv hlt
    exact execCore_partial_shape h hv hlt
  · intro b ref b2 hs h s p lvl1 hl
    exact delete_survivors hs h s p lvl1 hl
  · intro b ref shares mn b2 hs h s p lvl1 hl
    exact execCore_survivors hs h s p lvl1 hl
  · intro b ref shares printable price mn b2 hs h s p lvl1 hl
    exact execCore_survivors hs h s p lvl1 hl
  · intro b ref shares b2 hs h s p lvl1 hl
    exact execCore_survivors hs h s p lvl1 hl
  · intro b oldRef newRef volume price ts b2 hs h s p lvl1 hl
    exact replace_survivors hs h s p lvl1 hl

/-- Witness for C6: the spec's scenario 1 — two bids queued at 100.00,
a partial execution of 200 shares against ref 1 keeps both orders in
place in FIFO order; an add appends at the tail; and deleting ref 1
leaves the surviving queue [2] a subsequence of the old queue. -/
theorem claim6_witness :
    (lookupLevel 10000 (sideBook
        (⟨[(10000, [⟨1, 500, 1000, none⟩, ⟨2, 300, 1100, none⟩])], [],
          [(2, ⟨.Bid, 10000⟩), (1, ⟨.Bid, 10000⟩)]⟩ : LimitOrderBook) .Bid) =
      some (((lookupLevel 10000 (sideBook
        (⟨[(10000, [⟨1, 500, 1000, none⟩])], [], [(1, ⟨.Bid, 10000⟩)]⟩ :
          LimitOrderBook) .Bid)).getD []) ++ [⟨2, 300, 1100, none⟩])) ∧
    (refsShape (⟨[(10000, [⟨1, 300, 1000, none⟩, ⟨2, 300, 1100, none⟩])], [],
        [(1, ⟨.Bid, 10000⟩), (2, ⟨.Bid, 10000⟩)]⟩ : LimitOrderBook) =
      refsShape (⟨[(10000, [⟨1, 500, 1000, none⟩, ⟨2, 300, 1100, none⟩])], [],
        [(1, ⟨.Bid, 10000⟩), (2, ⟨.Bid, 10000⟩)]⟩ : LimitOrderBook) ∧
      (⟨[(10000, [⟨1, 300, 1000, none⟩, ⟨2, 300, 1100, none⟩])], [],
        [(1, ⟨.Bid, 10000⟩), (2, ⟨.Bid, 10000⟩)]⟩ : LimitOrderBook).index =
      (⟨[(10000, [⟨1, 500, 1000, none⟩, ⟨2, 300, 1100, none⟩])], [],
        [(1, ⟨.Bid, 10000⟩), (2, ⟨.Bid, 10000⟩)]⟩ : LimitOrderBook).index) ∧
    (∃ lvl, lookupLevel 10000 (sideBook
        (⟨[(10000, [⟨1, 500, 1000, none⟩, ⟨2, 300, 1100, none⟩])], [],
          [(1, ⟨.Bid, 10000⟩), (2, ⟨.Bid, 10000⟩)]⟩ : LimitOrderBook) .Bid) = some lvl ∧
      (([⟨2, 300, 1100, none⟩] : Level).map (fun o => o.ref)).Sublist
        (lvl.map (fun o => o.ref))) :=
  ⟨claim6_fifo_order_preserved.1
     ⟨[(10000, [⟨1, 500, 1000, none⟩])], [], [(1, ⟨.Bid, 10000⟩)]⟩
     2 .Bid 10000 300 1100 none
     ⟨[(10000, [⟨1, 500, 1000, none⟩, ⟨2, 300, 1100, none⟩])], [],
       [(2, ⟨.Bid, 10000⟩), (1, ⟨.Bid, 10000⟩)]⟩
     (by decide) rfl,
   claim6_fifo_order_preserved.2.1
     ⟨[(10000, [⟨1, 500, 1000, none⟩, ⟨2, 300, 1100, none⟩])], [],
       [(1, ⟨.Bid, 10000⟩), (2, ⟨.Bid, 10000⟩)]⟩
     1 200 7
     ⟨[(10000, [⟨1, 300, 1000, none⟩, ⟨2, 300, 1100, none⟩])], [],
       [(1, ⟨.Bid, 10000⟩), (2, ⟨.Bid, 10000⟩)]⟩
     500 rfl (by decide) (by decide),
   claim6_fifo_order_preserved.2.2.2.1
     ⟨[(10000, [⟨1, 500, 1000, none⟩, ⟨2, 300, 1100, none⟩])], [],
       [(1, ⟨.Bid, 10000⟩), (2, ⟨.Bid, 10000⟩)]⟩
     1
     ⟨[(10000, [⟨2, 300, 1100, none⟩])], [], [(2, ⟨.Bid, 10000⟩)]⟩
     (by decide) rfl .Bid 10000 [⟨2, 300, 1100, none⟩] rfl⟩

/- ------------------------------------------------------------------
   C7: hidden executions are frame-preserving
   ------------------------------------------------------------------ -/

/-- C7: processing a Trade message with order reference 0 (a hidden
execution) leaves the entire book — both side books and the
OrderIndex — unchanged, and delivers to the handlers a trade event
carrying reference 0; only the processor's last-seen timestamp
advances. -/
theorem claim7_hidden_trade_frame (st : ProcState) (ts : Nat) (s : Side)
    (shares price mn : Nat) :
    processMessage st ⟨ts, .tradeO 0 s shares price mn⟩ =
      ⟨st.book, ts, st.events ++ [.tradeEv 0 shares price mn]⟩ := rfl

/- ------------------------------------------------------------------
   Lemmas: scheduled snapshots (C4)
   ------------------------------------------------------------------ -/

@[simp] theorem lookupSnap_nil (t : Nat) : lookupSnap t [] = none := rfl

@[simp] theorem lookupSnap_cons (t t2 : Nat) (bk : LimitOrderBook)
    (l : List (Nat × LimitOrderBook)) :
    lookupSnap t ((t2, bk) :: l) = if t = t2 then some bk else lookupSnap t l := rfl

theorem lookupSnap_append (t : Nat) (l1 l2 : List (Nat × LimitOrderBook)) :
    lookupSnap t (l1 ++ l2) =
      match lookupSnap t l1 with
      | some v => some v
      | none => lookupSnap t l2 := by
  induction l1 with
  | nil => simp
  | cons hd rest ih =>
    obtain ⟨t2, bk⟩ := hd
    by_cases h : t = t2 <;> simp [h, ih]

theorem lookupSnap_not_key {t : Nat} {l : List (Nat × LimitOrderBook)}
    (h : t ∉ l.map Prod.fst) : lookupSnap t l = none := by
  induction l with
  | nil => rfl
  | cons hd rest ih =>
    obtain ⟨t2, bk⟩ := hd
    have h1 : t ≠ t2 := fun h2 => h (by simp [h2])
    have h2 : t ∉ rest.map Prod.fst := fun h3 => h (List.mem_cons_of_mem _ h3)
    simp [h1, ih h2]

theorem lookupSnap_map_const {t : Nat} {l : List Nat} {c : LimitOrderBook}
    (h : t ∈ l) : lookupSnap t (l.map (fun x => (x, c))) = some c := by
  induction l with
  | nil => simp at h
  | cons a rest ih =>
    by_cases h2 : t = a
    · simp [h2]
    · rcases List.mem_cons.mp h with h3 | h3
      · exact absurd h3 h2
      · simp [h2, ih h3]

theorem not_mem_filter_of_not_mem {t : Nat} {l : List Nat} {p : Nat → Bool}
    (h : t ∉ l) : t ∉ l.filter p :=
  fun h2 => h (List.mem_of_mem_filter h2)

/-- Once a scheduled timestamp is no longer pending, its snapshot
entry never changes. -/
theorem runRecorder_snaps_stable {msgs : List Msg} {rs : RecorderState} {t : Nat}
    (hp : t ∉ rs.pending) :
    lookupSnap t (runRecorder rs msgs).snaps = lookupSnap t rs.snaps := by
  induction msgs generalizing rs with
  | nil => rfl
  | cons m rest ih =>
    show lookupSnap t (runRecorder (recordStep rs m) rest).snaps = _
    rw [ih (not_mem_filter_of_not_mem hp)]
    show lookupSnap t (rs.snaps ++ _) = _
    rw [lookupSnap_append]
    have hkeys : t ∉ ((rs.pending.filter (fun t2 => decide (t2 < m.ts))).map
        (fun t2 => (t2, rs.proc.book))).map Prod.fst := by
      rw [List.map_map]
      intro h2
      simp at h2
      exact hp h2.1
    rw [lookupSnap_not_key hkeys]
    cases lookupSnap t rs.snaps <;> rfl

/-- The snapshot recorded for a pending timestamp `t` is the book
state reached by exactly the prefix of messages with timestamp ≤ t. -/
theorem runRecorder_lookup_fired {msgs : List Msg} {rs : RecorderState} {t : Nat}
    (hsort : msgs.Pairwise (fun a b => a.ts ≤ b.ts))
    (hmem : t ∈ rs.pending)
    (hnot : lookupSnap t rs.snaps = none)
    (hfire : ∃ m ∈ msgs, t < m.ts) :
    lookupSnap t (runRecorder rs msgs).snaps =
      some (runProc rs.proc (msgs.takeWhile (fun m => decide (m.ts ≤ t)))).book := by
  induction msgs generalizing rs with
  | nil =>
    obtain ⟨m, hm, -⟩ := hfire
    simp at hm
  | cons m rest ih =>
    rw [List.pairwise_cons] at hsort
    obtain ⟨hm, hrest⟩ := hsort
    by_cases hc : t < m.ts
    · have hdec : decide (m.ts ≤ t) = false := by
        simp
        omega
      rw [List.takeWhile_cons, hdec]
      simp only [Bool.false_eq_true, if_neg]
      show lookupSnap t (runRecorder (recordStep rs m) rest).snaps = some rs.proc.book
      have hpend2 : t ∉ (recordStep rs m).pending := by
        show t ∉ rs.pending.filter (fun t2 => decide (m.ts ≤ t2))
        intro h2
        have := List.of_mem_filter h2
        simp at this
        omega
      rw [runRecorder_snaps_stable hpend2]
      show lookupSnap t (rs.snaps ++ _) = _
      rw [lookupSnap_append, hnot]
      have hfired : t ∈ rs.pending.filter (fun t2 => decide (t2 < m.ts)) := by
        rw [List.mem_filter]
        exact ⟨hmem, by simpa using hc⟩
      exact lookupSnap_map_const hfired
    · have hdec : decide (m.ts ≤ t) = true := by
        simp
        omega
      rw [List.takeWhile_cons, hdec]
      simp only [if_pos]
      have hstep : runProc rs.proc (m :: rest.takeWhile (fun m2 => decide (m2.ts ≤ t))) =
          runProc (processMessage rs.proc m) (rest.takeWhile (fun m2 => decide (m2.ts ≤ t))) := rfl
      rw [hstep]
      have hmem2 : t ∈ (recordStep rs m).pending := by
        show t ∈ rs.pending.filter (fun t2 => decide (m.ts ≤ t2))
        rw [List.mem_filter]
        exact ⟨hmem, hdec⟩
      have hnot2 : lookupSnap t (recordStep rs m).snaps = none := by
        show lookupSnap t (rs.snaps ++ _) = none
        rw [lookupSnap_append, hnot]
        apply lookupSnap_not_key
        rw [List.map_map]
        intro h2
        simp at h2
        obtain ⟨-, h3⟩ := h2
        omega
      have hfire2 : ∃ m2 ∈ rest, t < m2.ts := by
        obtain ⟨m2, hm2, hlt2⟩ := hfire
        rcases List.mem_cons.mp hm2 with h4 | h4
        · subst h4
          exact absurd hlt2 hc
        · exact ⟨m2, h4, hlt2⟩
      exact ih hrest hmem2 hnot2 hfire2

/-- The recorded snapshots carry strictly increasing scheduled
timestamps: skipped timestamps fire in order. -/
theorem runRecorder_snaps_sorted {msgs : List Msg} {rs : RecorderState}
    (hpend : rs.pending.Pairwise (· < ·))
    (hsnaps : (rs.snaps.map Prod.fst).Pairwise (· < ·))
    (hsep : ∀ a ∈ rs.snaps.map Prod.fst, ∀ p ∈ rs.pending, a < p) :
    ((runRecorder rs msgs).snaps.map Prod.fst).Pairwise (· < ·) := by
  induction msgs generalizing rs with
  | nil => exact hsnaps
  | cons m rest ih =>
    show ((runRecorder (recordStep rs m) rest).snaps.map Prod.fst).Pairwise (· < ·)
    apply ih
    · exact hpend.filter _
    · show ((rs.snaps ++ _).map Prod.fst).Pairwise (· < ·)
      rw [List.map_append, List.map_map, List.pairwise_append]
      refine ⟨hsnaps, ?_, ?_⟩
      · rw [List.pairwise_map]
        exact hpend.filter _
      · intro a ha bb hbb
        simp at hbb
        exact hsep a ha bb hbb.1
    · intro a ha p hp
      show a < p
      simp only [recordStep] at ha hp
      rw [List.map_append, List.map_map] at ha
      have hp2 := List.of_mem_filter hp
      simp at hp2
      rcases List.mem_append.mp ha with h2 | h2
      · exact hsep a h2 p (List.mem_of_mem_filter hp)
      · simp at h2
        have := h2.2
        omega

theorem takeWhile_congr_msgs {p q : Msg → Bool} {l : List Msg}
    (h : ∀ a ∈ l, p a = q a) : l.takeWhile p = l.takeWhile q := by
  induction l with
  | nil => rfl
  | cons a rest ih =>
    rw [List.takeWhile_cons, List.takeWhile_cons, h a (List.mem_cons_self _ _)]
    cases hq : q a with
    | false => rfl
    | true =>
      rw [ih (fun a2 h2 => h a2 (List.mem_cons_of_mem _ h2))]

/-- C4: for a timestamp-sorted feed and a handler with pending
scheduled timestamps, the snapshot delivered for a scheduled time t is
captured before the mutation of the first message with timestamp > t:
it equals the book state produced by exactly the messages with
timestamp ≤ t.  Snapshots fire in strictly increasing timestamp
order, and scheduled timestamps skipped together by one message all
receive the same pre-mutation book state. -/
theorem claim4_scheduled_snapshot_timing
    (msgs : List Msg) (rs : RecorderState) (t : Nat)
    (hsort : msgs.Pairwise (fun a b => a.ts ≤ b.ts))
    (hpend : rs.pending.Pairwise (· < ·))
    (hsnaps : rs.snaps = [])
    (hmem : t ∈ rs.pending)
    (hfire : ∃ m ∈ msgs, t < m.ts) :
    lookupSnap t (runRecorder rs msgs).snaps =
      some (runProc rs.proc (msgs.takeWhile (fun m => decide (m.ts ≤ t)))).book ∧
    ((runRecorder rs msgs).snaps.map Prod.fst).Pairwise (· < ·) ∧
    (∀ t2 ∈ rs.pending, t ≤ t2 →
      (∀ m ∈ msgs, ¬ (t < m.ts ∧ m.ts ≤ t2)) →
      lookupSnap t2 (runRecorder rs msgs).snaps =
        some (runProc rs.proc (msgs.takeWhile (fun m => decide (m.ts ≤ t)))).book) := by
  refine ⟨?_, ?_, ?_⟩
  · exact runRecorder_lookup_fired hsort hmem (by simp [hsnaps]) hfire
  · exact runRecorder_snaps_sorted hpend (by simp [hsnaps]) (by simp [hsnaps])
  · intro t2 hmem2 hle hno
    have hfire2 : ∃ m ∈ msgs, t2 < m.ts := by
      obtain ⟨m, hm, hlt⟩ := hfire
      refine ⟨m, hm, ?_⟩
      have := hno m hm
      omega
    have h2 := runRecorder_lookup_fired hsort hmem2 (by simp [hsnaps]) hfire2
    rw [h2]
    have h3 : msgs.takeWhile (fun m => decide (m.ts ≤ t2)) =
        msgs.takeWhile (fun m => decide (m.ts ≤ t)) := by
      apply takeWhile_congr_msgs
      intro m hm
      have := hno m hm
      by_cases hmt : m.ts ≤ t
      · have : m.ts ≤ t2 := by omega
        simp [hmt, this]
      · have : ¬ m.ts ≤ t2 := by omega
        simp [hmt, this]
    rw [h3]

/-- Witness for C4: the spec's scenario 5 — ref 7 added at ts 1000, a
snapshot scheduled at ts 1500, ref 8 added at ts 2000: the snapshot
for 1500 shows the book after the ts-1000 message only. -/
theorem claim4_witness :
    lookupSnap 1500 (runRecorder
      ⟨⟨emptyBook, 0, []⟩, [1500], []⟩
      [⟨1000, .addO 7 .Bid 100 100 none⟩, ⟨2000, .addO 8 .Bid 99 50 none⟩]).snaps =
      some (runProc ⟨emptyBook, 0, []⟩
        ([⟨1000, .addO 7 .Bid 100 100 none⟩, ⟨2000, .addO 8 .Bid 99 50 none⟩].takeWhile
          (fun m => decide (m.ts ≤ 1500)))).book ∧
    ((runRecorder ⟨⟨emptyBook, 0, []⟩, [1500], []⟩
      [⟨1000, .addO 7 .Bid 100 100 none⟩, ⟨2000, .addO 8 .Bid 99 50 none⟩]).snaps.map
        Prod.fst).Pairwise (· < ·) ∧
    (∀ t2 ∈ [1500], 1500 ≤ t2 →
      (∀ m ∈ [(⟨1000, .addO 7 .Bid 100 100 none⟩ : Msg), ⟨2000, .addO 8 .Bid 99 50 none⟩],
        ¬ (1500 < m.ts ∧ m.ts ≤ t2)) →
      lookupSnap t2 (runRecorder ⟨⟨emptyBook, 0, []⟩, [1500], []⟩
        [⟨1000, .addO 7 .Bid 100 100 none⟩, ⟨2000, .addO 8 .Bid 99 50 none⟩]).snaps =
        some (runProc ⟨emptyBook, 0, []⟩
          ([⟨1000, .addO 7 .Bid 100 100 none⟩, ⟨2000, .addO 8 .Bid 99 50 none⟩].takeWhile
            (fun m => decide (m.ts ≤ 1500)))).book) :=
  claim4_scheduled_snapshot_timing
    [⟨1000, .addO 7 .Bid 100 100 none⟩, ⟨2000, .addO 8 .Bid 99 50 none⟩]
    ⟨⟨emptyBook, 0, []⟩, [1500], []⟩ 1500
    (by decide) (by decide) rfl (by decide)
    ⟨⟨2000, .addO 8 .Bid 99 50 none⟩, by decide, by decide⟩

/- ------------------------------------------------------------------
   Lemmas: writer emitted-set discipline (C8)
   ------------------------------------------------------------------ -/

theorem get?_append_one {out : List FMsg} {j : Nat} {m2 m : FMsg}
    (h : out.get? j = some m2) : (out ++ [m]).get? j = some m2 := by
  have hj : j < out.length := by
    by_contra h2
    rw [List.get?_eq_none.mpr (by omega)] at h
    exact absurd h (by simp)
  rw [List.get?_append hj]
  exact h

theorem outputIntegrity_append {out : List FMsg} {m : FMsg}
    (hint : outputIntegrity out)
    (href : ∀ r, orderKeyRef m = some r →
      ∃ j m2, out.get? j = some m2 ∧ introducesRef m2 r)
    (hmn : ∀ mn, brokenKeyMatch m = some mn →
      ∃ j m2, out.get? j = some m2 ∧ introducesMatch m2 mn) :
    outputIntegrity (out ++ [m]) := by
  have hidx : ∀ (i : Nat) (m3 : FMsg), (out ++ [m]).get? i = some m3 →
      (i < out.length ∧ out.get? i = some m3) ∨ (i = out.length ∧ m3 = m) := by
    intro i m3 h
    by_cases hi : i < out.length
    · left
      rw [List.get?_append hi] at h
      exact ⟨hi, h⟩
    · right
      have hlen : i < out.length + 1 := by
        by_contra h2
        rw [List.get?_eq_none.mpr (by simp; omega)] at h
        exact absurd h (by simp)
      have hieq : i = out.length := by omega
      subst hieq
      rw [List.get?_concat_length] at h
      exact ⟨rfl, (Option.some.inj h).symm⟩
  have hjlt : ∀ (j : Nat) (m2 : FMsg), out.get? j = some m2 → j < out.length := by
    intro j m2 h
    by_contra h2
    rw [List.get?_eq_none.mpr (by omega)] at h
    exact absurd h (by simp)
  constructor
  · intro i m3 r hget hkey
    rcases hidx i m3 hget with ⟨hi, hget2⟩ | ⟨hi, hm3⟩
    · obtain ⟨j, m4, hj, hget3, hintro⟩ := hint.1 i m3 r hget2 hkey
      exact ⟨j, m4, hj, get?_append_one hget3, hintro⟩
    · subst hi
      subst hm3
      obtain ⟨j, m4, hget3, hintro⟩ := href r hkey
      exact ⟨j, m4, hjlt j m4 hget3, get?_append_one hget3, hintro⟩
  · intro i m3 mn hget hkey
    rcases hidx i m3 hget with ⟨hi, hget2⟩ | ⟨hi, hm3⟩
    · obtain ⟨j, m4, hj, hget3, hintro⟩ := hint.2 i m3 mn hget2 hkey
      exact ⟨j, m4, hj, get?_append_one hget3, hintro⟩
    · subst hi
      subst hm3
      obtain ⟨j, m4, hget3, hintro⟩ := hmn mn hkey
      exact ⟨j, m4, hjlt j m4 hget3, get?_append_one hget3, hintro⟩

theorem get?_last_self (out : List FMsg) (m : FMsg) :
    (out ++ [m]).get? out.length = some m := List.get?_concat_length out m

/-- One writer step preserves the soundness invariant. -/
theorem writer_step_good (filt : List Nat) (st : WriterState) (m : FMsg)
    (hg : writerGood st) : writerGood (ITCH50Writer.process_message filt st m) := by
  obtain ⟨hrefs, hmns, hint⟩ := hg
  have hlift : ∀ (l : List Nat)
      (h : ∀ r ∈ l, ∃ j m2, st.output.get? j = some m2 ∧ introducesRef m2 r),
      ∀ r ∈ l, ∃ j m2, (st.output ++ [m]).get? j = some m2 ∧ introducesRef m2 r := by
    intro l h r hr
    obtain ⟨j, m2, hget, hintro⟩ := h r hr
    exact ⟨j, m2, get?_append_one hget, hintro⟩
  have hliftm : ∀ (l : List Nat)
      (h : ∀ mn ∈ l, ∃ j m2, st.output.get? j = some m2 ∧ introducesMatch m2 mn),
      ∀ mn ∈ l, ∃ j m2, (st.output ++ [m]).get? j = some m2 ∧ introducesMatch m2 mn := by
    intro l h mn hmn
    obtain ⟨j, m2, hget, hintro⟩ := h mn hmn
    exact ⟨j, m2, get?_append_one hget, hintro⟩
  cases m with
  | system code =>
    refine ⟨hlift _ hrefs, hliftm _ hmns, ?_⟩
    exact outputIntegrity_append hint (by intro r h; simp [orderKeyRef] at h)
      (by intro mn h; simp [brokenKeyMatch] at h)
  | marketWide tag code =>
    refine ⟨hlift _ hrefs, hliftm _ hmns, ?_⟩
    exact outputIntegrity_append hint (by intro r h; simp [orderKeyRef] at h)
      (by intro mn h; simp [brokenKeyMatch] at h)
  | stock tag sym =>
    by_cases hc : sym ∈ filt
    · simp only [ITCH50Writer.process_message, if_pos hc]
      refine ⟨hlift _ hrefs, hliftm _ hmns, ?_⟩
      exact outputIntegrity_append hint (by intro r h; simp [orderKeyRef] at h)
        (by intro mn h; simp [brokenKeyMatch] at h)
    · simp only [ITCH50Writer.process_message, if_neg hc]
      exact ⟨hrefs, hmns, hint⟩
  | addOrder ref sym mp =>
    by_cases hc : sym ∈ filt
    · simp only [ITCH50Writer.process_message, if_pos hc]
      refine ⟨?_, hliftm _ hmns, ?_⟩
      · intro r hr
        rcases List.mem_cons.mp hr with h2 | h2
        · subst h2
          exact ⟨st.output.length, _, get?_last_self _ _, Or.inl ⟨sym, mp, rfl⟩⟩
        · exact hlift _ hrefs r h2
      · exact outputIntegrity_append hint (by intro r h; simp [orderKeyRef] at h)
          (by intro mn h; simp [brokenKeyMatch] at h)
    · simp only [ITCH50Writer.process_message, if_neg hc]
      exact ⟨hrefs, hmns, hint⟩
  | orderExec ref mn =>
    by_cases hc : ref ∈ st.emittedRefs
    · simp only [ITCH50Writer.process_message, if_pos hc]
      refine ⟨hlift _ hrefs, ?_, ?_⟩
      · intro mn2 hmn2
        rcases List.mem_cons.mp hmn2 with h2 | h2
        · subst h2
          exact ⟨st.output.length, _, get?_last_self _ _, Or.inl ⟨ref, rfl⟩⟩
        · exact hliftm _ hmns mn2 h2
      · refine outputIntegrity_append hint ?_ (by intro mn2 h; simp [brokenKeyMatch] at h)
        intro r h
        simp [orderKeyRef] at h
        subst h
        exact hrefs ref hc
    · simp only [ITCH50Writer.process_message, if_neg hc]
      exact ⟨hrefs, hmns, hint⟩
  | orderExecPrice ref mn =>
    by_cases hc : ref ∈ st.emittedRefs
    · simp only [ITCH50Writer.process_message, if_pos hc]
      refine ⟨hlift _ hrefs, ?_, ?_⟩
      · intro mn2 hmn2
        rcases List.mem_cons.mp hmn2 with h2 | h2
        · subst h2
          exact ⟨st.output.length, _, get?_last_self _ _, Or.inr (Or.inl ⟨ref, rfl⟩)⟩
        · exact hliftm _ hmns mn2 h2
      · refine outputIntegrity_append hint ?_ (by intro mn2 h; simp [brokenKeyMatch] at h)
        intro r h
        simp [orderKeyRef] at h
        subst h
        exact hrefs ref hc
    · simp only [ITCH50Writer.process_message, if_neg hc]
      exact ⟨hrefs, hmns, hint⟩
  | orderCancel ref sh =>
    by_cases hc : ref ∈ st.emittedRefs
    · simp only [ITCH50Writer.process_message, if_pos hc]
      refine ⟨hlift _ hrefs, hliftm _ hmns, ?_⟩
      refine outputIntegrity_append hint ?_ (by intro mn2 h; simp [brokenKeyMatch] at h)
      intro r h
      simp [orderKeyRef] at h
      subst h
      exact hrefs ref hc
    · simp only [ITCH50Writer.process_message, if_neg hc]
      exact ⟨hrefs, hmns, hint⟩
  | orderDelete ref =>
    by_cases hc : ref ∈ st.emittedRefs
    · simp only [ITCH50Writer.process_message, if_pos hc]
      refine ⟨hlift _ hrefs, hliftm _ hmns, ?_⟩
      refine outputIntegrity_append hint ?_ (by intro mn2 h; simp [brokenKeyMatch] at h)
      intro r h
      simp [orderKeyRef] at h
      subst h
      exact hrefs ref hc
    · simp only [ITCH50Writer.process_message, if_neg hc]
      exact ⟨hrefs, hmns, hint⟩
  | orderReplace o n =>
    by_cases hc : o ∈ st.emittedRefs
    · simp only [ITCH50Writer.process_message, if_pos hc]
      refine ⟨?_, hliftm _ hmns, ?_⟩
      · intro r hr
        rcases List.mem_cons.mp hr with h2 | h2
        · subst h2
          exact ⟨st.output.length, _, get?_last_self _ _, Or.inr ⟨o, rfl⟩⟩
        · exact hlift _ hrefs r (List.mem_of_mem_filter h2)
      · refine outputIntegrity_append hint ?_ (by intro mn2 h; simp [brokenKeyMatch] at h)
        intro r h
        simp [orderKeyRef] at h
        subst h
        exact hrefs o hc
    · simp only [ITCH50Writer.process_message, if_neg hc]
      exact ⟨hrefs, hmns, hint⟩
  | trade ref sym mn =>
    by_cases hc : sym ∈ filt
    · simp only [ITCH50Writer.process_message, if_pos hc]
      refine ⟨hlift _ hrefs, ?_, ?_⟩
      · intro mn2 hmn2
        rcases List.mem_cons.mp hmn2 with h2 | h2
        · subst h2
          exact ⟨st.output.length, _, get?_last_self _ _,
            Or.inr (Or.inr (Or.inl ⟨ref, sym, rfl⟩))⟩
        · exact hliftm _ hmns mn2 h2
      · exact outputIntegrity_append hint (by intro r h; simp [orderKeyRef] at h)
          (by intro mn2 h; simp [brokenKeyMatch] at h)
    · simp only [ITCH50Writer.process_message, if_neg hc]
      exact ⟨hrefs, hmns, hint⟩
  | cross sym mn =>
    by_cases hc : sym ∈ filt
    · simp only [ITCH50Writer.process_message, if_pos hc]
      refine ⟨hlift _ hrefs, ?_, ?_⟩
      · intro mn2 hmn2
        rcases List.mem_cons.mp hmn2 with h2 | h2
        · subst h2
          exact ⟨st.output.length, _, get?_last_self _ _,
            Or.inr (Or.inr (Or.inr ⟨sym, rfl⟩))⟩
        · exact hliftm _ hmns mn2 h2
      · exact outputIntegrity_append hint (by intro r h; simp [orderKeyRef] at h)
          (by intro mn2 h; simp [brokenKeyMatch] at h)
    · simp only [ITCH50Writer.process_message, if_neg hc]
      exact ⟨hrefs, hmns, hint⟩
  | broken mn =>
    by_cases hc : mn ∈ st.emittedMatches
    · simp only [ITCH50Writer.process_message, if_pos hc]
      refine ⟨hlift _ hrefs, hliftm _ hmns, ?_⟩
      refine outputIntegrity_append hint (by intro r h; simp [orderKeyRef] at h) ?_
      intro mn2 h
      simp [brokenKeyMatch] at h
      subst h
      exact hmns mn hc
    · simp only [ITCH50Writer.process_message, if_neg hc]
      exact ⟨hrefs, hmns, hint⟩

theorem writer_fold_good (filt : List Nat) (msgs : List FMsg) (st : WriterState)
    (hg : writerGood st) :
    writerGood (msgs.foldl (ITCH50Writer.process_message filt) st) := by
  induction msgs generalizing st with
  | nil => exact hg
  | cons m rest ih => exact ih _ (writer_step_good filt st m hg)

theorem output_ne_append (l : List FMsg) (m : FMsg) : l ≠ l ++ [m] := by
  intro h
  have h2 := congrArg List.length h
  simp at h2

/-- C8: the symbol-filter writer emits an order-keyed message
(E, C, X, D, U) iff its order reference is in the transient emitted
set at that point, an emitted U removing the old ref and inserting the
new one; emits a broken trade (B) iff its match number was previously
emitted; and consequently, over any input run from the initial state,
every order- or match-keyed record of the output refers to an entity
introduced at an earlier position of the output. -/
theorem claim8_writer_emitted_set_discipline (filt : List Nat) :
    (∀ (st : WriterState) (ref mn : Nat),
      ((ITCH50Writer.process_message filt st (.orderExec ref mn)).output =
        st.output ++ [.orderExec ref mn] ↔ ref ∈ st.emittedRefs)) ∧
    (∀ (st : WriterState) (ref mn : Nat),
      ((ITCH50Writer.process_message filt st (.orderExecPrice ref mn)).output =
        st.output ++ [.orderExecPrice ref mn] ↔ ref ∈ st.emittedRefs)) ∧
    (∀ (st : WriterState) (ref sh : Nat),
      ((ITCH50Writer.process_message filt st (.orderCancel ref sh)).output =
        st.output ++ [.orderCancel ref sh] ↔ ref ∈ st.emittedRefs)) ∧
    (∀ (st : WriterState) (ref : Nat),
      ((ITCH50Writer.process_message filt st (.orderDelete ref)).output =
        st.output ++ [.orderDelete ref] ↔ ref ∈ st.emittedRefs)) ∧
    (∀ (st : WriterState) (o n : Nat),
      ((ITCH50Writer.process_message filt st (.orderReplace o n)).output =
        st.output ++ [.orderReplace o n] ↔ o ∈ st.emittedRefs) ∧
      (o ∈ st.emittedRefs →
        (ITCH50Writer.process_message filt st (.orderReplace o n)).emittedRefs =
          n :: st.emittedRefs.filter (fun r => r != o))) ∧
    (∀ (st : WriterState) (mn : Nat),
      ((ITCH50Writer.process_message filt st (.broken mn)).output =
        st.output ++ [.broken mn] ↔ mn ∈ st.emittedMatches)) ∧
    (∀ msgs : List FMsg, outputIntegrity (runWriter filt msgs).output) := by
  refine ⟨?_, ?_, ?_, ?_, ?_, ?_, ?_⟩
  · intro st ref mn
    by_cases hc : ref ∈ st.emittedRefs <;>
      simp [ITCH50Writer.process_message, hc, output_ne_append]
  · intro st ref mn
    by_cases hc : ref ∈ st.emittedRefs <;>
      simp [ITCH50Writer.process_message, hc, output_ne_append]
  · intro st ref sh
    by_cases hc : ref ∈ st.emittedRefs <;>
      simp [ITCH50Writer.process_message, hc, output_ne_append]
  · intro st ref
    by_cases hc : ref ∈ st.emittedRefs <;>
      simp [ITCH50Writer.process_message, hc, output_ne_append]
  · intro st o n
    constructor
    · by_cases hc : o ∈ st.emittedRefs <;>
        simp [ITCH50Writer.process_message, hc, output_ne_append]
    · intro hc
      simp [ITCH50Writer.process_message, hc]
  · intro st mn
    by_cases hc : mn ∈ st.emittedMatches <;>
      simp [ITCH50Writer.process_message, hc, output_ne_append]
  · intro msgs
    have hg : writerGood initWriter := by
      refine ⟨?_, ?_, ?_, ?_⟩
      · intro r hr
        simp [initWriter] at hr
      · intro mn hmn
        simp [initWriter] at hmn
      · intro i m r hget
        simp [initWriter] at hget
      · intro i m mn hget
        simp [initWriter] at hget
    exact (writer_fold_good filt msgs initWriter hg).2.2

/-- Witness for C8: a two-message run — an A for symbol 1 then an E on
its reference — has integral output, and the E passes exactly because
the reference was emitted. -/
theorem claim8_witness :
    ((ITCH50Writer.process_message [1] ⟨[5], [], [.addOrder 5 1 none]⟩
        (.orderExec 5 77)).output =
      [FMsg.addOrder 5 1 none] ++ [.orderExec 5 77] ↔ 5 ∈ [5]) ∧
    outputIntegrity (runWriter [1] [.addOrder 5 1 none, .orderExec 5 77, .broken 77]).output :=
  ⟨(claim8_writer_emitted_set_discipline [1]).1 ⟨[5], [], [.addOrder 5 1 none]⟩ 5 77,
   (claim8_writer_emitted_set_discipline [1]).2.2.2.2.2.2
     [.addOrder 5 1 none, .orderExec 5 77, .broken 77]⟩

/- ------------------------------------------------------------------
   Lemmas: big-endian field codec (C3, C9)
   ------------------------------------------------------------------ -/

@[simp] theorem beEncode_length (n v : Nat) : (beEncode n v).length = n := by
  induction n generalizing v with
  | zero => rfl
  | succ n ih => simp [beEncode, ih]

theorem beEncode_bytes_lt (n v : Nat) : ∀ x ∈ beEncode n v, x < 256 := by
  induction n generalizing v with
  | zero => simp [beEncode]
  | succ n ih =>
    intro x hx
    simp only [beEncode] at hx
    rcases List.mem_append.mp hx with h | h
    · exact ih _ x h
    · simp at h
      subst h
      exact Nat.mod_lt _ (by omega)

theorem beDecode_append_one (l : List Nat) (x : Nat) :
    beDecode (l ++ [x]) = (beDecode l) * 256 + x := by
  simp [beDecode, List.foldl_append]

theorem beDecode_beEncode (n v : Nat) (h : v < 256 ^ n) :
    beDecode (beEncode n v) = v := by
  induction n generalizing v with
  | zero =>
    simp [Nat.pow_zero] at h
    simp [beEncode, beDecode]
    omega
  | succ n ih =>
    have hdiv : v / 256 < 256 ^ n := by
      have h2 : v < 256 * 256 ^ n := by
        rw [Nat.pow_succ, Nat.mul_comm] at h
        exact h
      exact Nat.div_lt_of_lt_mul h2
    simp only [beEncode, beDecode_append_one, ih _ hdiv]
    omega

theorem beEncode_beDecode (n : Nat) (bs : List Nat) (hlen : bs.length = n)
    (hb : ∀ x ∈ bs, x < 256) : beEncode n (beDecode bs) = bs := by
  induction n generalizing bs with
  | zero =>
    rw [List.length_eq_zero] at hlen
    subst hlen
    rfl
  | succ n ih =>
    rcases List.eq_nil_or_concat bs with h | ⟨L, a, h⟩
    · rw [h] at hlen
      simp at hlen
    · subst h
      rw [List.concat_eq_append] at hlen hb ⊢
      have hLlen : L.length = n := by
        simp at hlen
        omega
      have ha : a < 256 := hb a (by simp)
      have hLb : ∀ x ∈ L, x < 256 := fun x hx => hb x (List.mem_append_left _ hx)
      rw [beDecode_append_one]
      have hdiv : ((beDecode L) * 256 + a) / 256 = beDecode L := by omega
      have hmod : ((beDecode L) * 256 + a) % 256 = a := by omega
      simp only [beEncode, hdiv, hmod, ih L hLlen hLb]

theorem encodeFields_length (ws vs : List Nat) (h : vs.length = ws.length) :
    (encodeFields ws vs).length = ws.sum := by
  induction ws generalizing vs with
  | nil =>
    cases vs with
    | nil => rfl
    | cons v vs => simp at h
  | cons w ws ih =>
    cases vs with
    | nil => simp at h
    | cons v vs =>
      simp at h
      simp [encodeFields, ih vs h]

theorem decodeFields_encodeFields (ws vs : List Nat) (hlen : vs.length = ws.length)
    (hb : ∀ p ∈ ws.zip vs, p.2 < 256 ^ p.1) :
    decodeFields ws (encodeFields ws vs) = vs := by
  induction ws generalizing vs with
  | nil =>
    have h0 : vs = [] := List.length_eq_zero.mp (by simpa using hlen)
    subst h0
    rfl
  | cons w ws ih =>
    cases vs with
    | nil => simp at hlen
    | cons v vs =>
      simp at hlen
      have hv : v < 256 ^ w := hb (w, v) (by simp [List.zip_cons_cons])
      have hrest : ∀ p ∈ ws.zip vs, p.2 < 256 ^ p.1 :=
        fun p hp => hb p (by simp [List.zip_cons_cons, hp])
      show beDecode ((beEncode w v ++ encodeFields ws vs).take w) ::
          decodeFields ws ((beEncode w v ++ encodeFields ws vs).drop w) = v :: vs
      have htake : (beEncode w v ++ encodeFields ws vs).take w = beEncode w v :=
        List.take_left' (beEncode_length w v)
      have hdrop : (beEncode w v ++ encodeFields ws vs).drop w = encodeFields ws vs :=
        List.drop_left' (beEncode_length w v)
      rw [htake, hdrop, beDecode_beEncode w v hv, ih vs hlen hrest]

theorem encodeFields_decodeFields (ws bs : List Nat) (hlen : bs.length = ws.sum)
    (hb : ∀ x ∈ bs, x < 256) :
    encodeFields ws (decodeFields ws bs) = bs := by
  induction ws generalizing bs with
  | nil =>
    simp at hlen
    subst hlen
    rfl
  | cons w ws ih =>
    have hwle : w ≤ bs.length := by
      simp at hlen
      omega
    show beEncode w (beDecode (bs.take w)) ++ encodeFields ws (decodeFields ws (bs.drop w)) = bs
    have htlen : (bs.take w).length = w := by
      simp
      omega
    have htb : ∀ x ∈ bs.take w, x < 256 := fun x hx => hb x (List.take_subset _ _ hx)
    have hdlen : (bs.drop w).length = ws.sum := by
      simp at hlen ⊢
      omega
    have hdb : ∀ x ∈ bs.drop w, x < 256 := fun x hx => hb x (List.drop_subset _ _ hx)
    rw [beEncode_beDecode w _ htlen htb, ih _ hdlen hdb, List.take_append_drop]

theorem schema_sum_lt {t : Nat} {ws : List Nat} (h : schema t = some ws) :
    1 + ws.sum < 65536 := by
  unfold schema at h
  split at h
  all_goals first
  | (injection h with h2; subst h2; decide)
  | (exact absurd h (by simp))

/-- Decoding a framed record with a known tag and a body of the
tag's exact length. -/
theorem decodeRecord_frame {tag : Nat} {ws body : List Nat}
    (hws : schema tag = some ws) (hlen : body.length = ws.sum) :
    decodeRecord (beEncode 2 (1 + ws.sum) ++ tag :: body) =
      .ok ⟨tag, decodeFields ws body⟩ := by
  have hlt : 1 + ws.sum < 65536 := schema_sum_lt hws
  have hb2 : beEncode 2 (1 + ws.sum) ++ tag :: body =
      (1 + ws.sum) / 256 % 256 :: (1 + ws.sum) % 256 :: (tag :: body) := by
    simp [beEncode]
  rw [hb2]
  have hlen2 : (1 + ws.sum) / 256 % 256 * 256 + (1 + ws.sum) % 256 = 1 + ws.sum := by
    omega
  have hnotlt : ¬ (tag :: body).length < 1 + ws.sum := by
    simp [hlen]
    omega
  have htake : (tag :: body).take (1 + ws.sum) = tag :: body := by
    apply List.take_of_length_le
    simp [hlen]
    omega
  simp [decodeRecord, hlen2, hnotlt, htake, hws, hlen]
  omega

/-- Round trip one way: decoding an encoded message gives the message
back, for any message whose fields fit the widths of its tag. -/
theorem decodeRecord_encodeRecord {m : MessageModel} {ws : List Nat}
    (hws : schema m.tag = some ws) (hlen : m.fields.length = ws.length)
    (hbound : ∀ p ∈ ws.zip m.fields, p.2 < 256 ^ p.1) :
    decodeRecord (encodeRecord m) = .ok m := by
  obtain ⟨tag, fields⟩ := m
  simp only at hws hlen hbound
  have hel : (encodeFields ws fields).length = ws.sum := encodeFields_length ws fields hlen
  have henc : encodeRecord ⟨tag, fields⟩ =
      beEncode 2 (1 + ws.sum) ++ tag :: encodeFields ws fields := by
    simp [encodeRecord, hws, hel, Nat.add_comm]
  rw [henc, decodeRecord_frame hws hel, decodeFields_encodeFields ws fields hlen hbound]

/-- Round trip the other way: a well-framed record decodes, and
re-encoding the decoded message reproduces the record byte for byte. -/
theorem wellFramed_roundtrip {bs : List Nat} (h : wellFramed bs) :
    ∃ m, decodeRecord bs = .ok m ∧ encodeRecord m = bs := by
  obtain ⟨tag, ws, body, hws, htag, hb, hlen, hsz, hbs⟩ := h
  subst hbs
  refine ⟨⟨tag, decodeFields ws body⟩, decodeRecord_frame hws hlen, ?_⟩
  have hef : encodeFields ws (decodeFields ws body) = body :=
    encodeFields_decodeFields ws body hlen hb
  have hplen : (tag :: encodeFields ws (decodeFields ws body)).length = 1 + ws.sum := by
    rw [hef]
    simp [hlen]
    omega
  simp only [encodeRecord, hws, hplen, hef]
  have hl2 : (tag :: body).length = 1 + ws.sum := by
    simp [hlen]
    omega
  rw [hl2]

/-- C3: encoding then decoding is the identity on every MessageModel
whose fields fit its tag's wire widths, and decoding then re-encoding
is the identity on every well-framed byte record — the encoder output
is length-prefixed and byte-identical to the wire form. -/
theorem claim3_codec_roundtrip :
    (∀ (m : MessageModel) (ws : List Nat), schema m.tag = some ws →
      m.fields.length = ws.length → (∀ p ∈ ws.zip m.fields, p.2 < 256 ^ p.1) →
      decodeRecord (encodeRecord m) = .ok m) ∧
    (∀ bs : List Nat, wellFramed bs →
      ∃ m, decodeRecord bs = .ok m ∧ encodeRecord m = bs) := by
  constructor
  · intro m ws hws hlen hbound
    exact decodeRecord_encodeRecord hws hlen hbound
  · intro bs h
    exact wellFramed_roundtrip h

/-- Witness for C3: an order-delete record (tag D = 68, timestamp
123456, reference 42) round-trips both ways. -/
theorem claim3_witness :
    decodeRecord (encodeRecord ⟨68, [123456, 42]⟩) = .ok ⟨68, [123456, 42]⟩ ∧
    ∃ m, decodeRecord [0, 15, 68, 0, 0, 0, 1, 226, 64, 0, 0, 0, 0, 0, 0, 0, 42] = .ok m ∧
      encodeRecord m = [0, 15, 68, 0, 0, 0, 1, 226, 64, 0, 0, 0, 0, 0, 0, 0, 42] :=
  ⟨claim3_codec_roundtrip.1 ⟨68, [123456, 42]⟩ [6, 8] rfl rfl (by decide),
   claim3_codec_roundtrip.2 _
     ⟨68, [6, 8], [0, 0, 0, 1, 226, 64, 0, 0, 0, 0, 0, 0, 0, 42],
      rfl, by decide, by decide, by decide, by decide, by decide⟩⟩

/-- C9: the decoder has a schema entry for every tag of the section
4.1 table — including J (LULD auction collar) and h (operational
halt) — raises UnknownType(b) only for a tag byte outside the table,
and successfully decodes every well-framed record. -/
theorem claim9_decoder_tag_coverage :
    (∀ t ∈ tagTable, (schema t).isSome = true) ∧
    (schema 74).isSome = true ∧
    (schema 104).isSome = true ∧
    (∀ (bs : List Nat) (t : Nat),
      decodeRecord bs = .error (.UnknownType t) → schema t = none) ∧
    (∀ bs : List Nat, wellFramed bs → ∃ m, decodeRecord bs = .ok m) := by
  refine ⟨by decide, by decide, by decide, ?_, ?_⟩
  · intro bs t h
    cases bs with
    | nil => simp [decodeRecord] at h
    | cons b0 bs2 =>
      cases bs2 with
      | nil => simp [decodeRecord] at h
      | cons b1 rest =>
        simp only [decodeRecord] at h
        by_cases h1 : rest.length < b0 * 256 + b1
        · simp [h1] at h
        · simp only [if_neg h1] at h
          cases h2 : rest.take (b0 * 256 + b1) with
          | nil => simp [h2] at h
          | cons tag body =>
            simp only [h2] at h
            cases h3 : schema tag with
            | none =>
              simp only [h3] at h
              simp at h
              rw [← h]
              exact h3
            | some ws =>
              simp only [h3] at h
              by_cases h4 : b0 * 256 + b1 = 1 + ws.sum <;> simp [h4] at h
  · intro bs h
    obtain ⟨m, hm, -⟩ := wellFramed_roundtrip h
    exact ⟨m, hm⟩

/-- Witness for C9: tag J (74) is in the table and has a schema; the
record with unknown tag byte 1 raises UnknownType 1, so schema 1 is
none; and a well-framed D record decodes. -/
theorem claim9_witness :
    (schema 74).isSome = true ∧ schema 1 = none ∧
    ∃ m, decodeRecord [0, 15, 68, 0, 0, 0, 1, 226, 64, 0, 0, 0, 0, 0, 0, 0, 42] = .ok m :=
  ⟨claim9_decoder_tag_coverage.1 74 (by decide),
   claim9_decoder_tag_coverage.2.2.2.1 [0, 2, 1, 0] 1 rfl,
   claim9_decoder_tag_coverage.2.2.2.2 _
     ⟨68, [6, 8], [0, 0, 0, 1, 226, 64, 0, 0, 0, 0, 0, 0, 0, 42],
      rfl, by decide, by decide, by decide, by decide, by decide⟩⟩

end MeatPy
